import Mathlib

set_option autoImplicit false

/-!
Shallow embedding of the data structures of `Chapter01/datastructures.py`:
the two-stack FIFO queue `OurQueue` and the indexed binary min-heap `OurHeap`
(a heap list plus a `rank` dictionary mapping each element to its slot).

Conventions of the embedding:

* Python's `self.heap` is `[None] ++ l`: the unused sentinel at index 0 is not
  an element, so we store only `l : List α`.  Slot `i` (`i ≥ 1`) of the Python
  list is `l[i-1]`; `getSlot`/`setSlot` perform that translation, and reading
  slot 0 yields `none` (the sentinel is not an element of `α`; every call site
  of the public API uses slots `≥ 1`).  `len(self.heap)` is `l.length + 1`.
* Python's `self.rank` dictionary is an association list with unique keys
  (`rankInsert` overwrites in place, so keys stay unique); `del d[k]` is
  modelled by removing every binding of `k`, which coincides with dict
  deletion on the unique-key states the code produces.
* Python exceptions (failed `assert`, `KeyError`, `IndexError`) are modelled
  by `Except`: `.error s` carries the state of the structure at the moment the
  exception fires, so that claims about the state after a failed call can be
  stated.
* Python's `<` on elements is an explicit parameter `lt : α → α → Bool`;
  `==`/dict hashing is `DecidableEq α`.
-/

namespace DataStructures

variable {α : Type} [DecidableEq α]

/-- Association list modelling the Python dict `self.rank : dict[Any, int]`. -/
abbrev RankMap (α : Type) : Type := List (α × Nat)

/-- Dictionary lookup `d[k]` (first binding of the key, `none` on `KeyError`). -/
def rankLookup : RankMap α → α → Option Nat
  | [], _ => none
  | (k, v) :: r, x => if k = x then some v else rankLookup r x

/-- Membership test `x in d`. -/
def rankMem (r : RankMap α) (x : α) : Bool :=
  (rankLookup r x).isSome

/-- Dictionary assignment `d[k] = v`: overwrite the existing binding in place,
or append a new one (dicts keep insertion order). -/
def rankInsert : RankMap α → α → Nat → RankMap α
  | [], x, v => [(x, v)]
  | (k, w) :: r, x, v => if k = x then (x, v) :: r else (k, w) :: rankInsert r x v

/-- Dictionary deletion `del d[k]`: removes every binding of `k`, which on the
unique-key association lists the operations produce is exactly dict deletion. -/
def rankErase : RankMap α → α → RankMap α
  | [], _ => []
  | (k, w) :: r, x => if k = x then rankErase r x else (k, w) :: rankErase r x

/-- Read `self.heap[i]` for slot `i ≥ 1` (slot 0 holds the `None` sentinel,
which is not an element, hence `none`; an out-of-range read is an
`IndexError`, also `none`). -/
def getSlot (l : List α) (i : Nat) : Option α :=
  if 1 ≤ i then l[i - 1]? else none

/-- Write `self.heap[i] = v` for slot `i ≥ 1`.  A write to slot 0 touches only
the invisible sentinel, so the element list is unchanged; the heap operations
never write slot 0. -/
def setSlot (l : List α) (i : Nat) (v : α) : List α :=
  if 1 ≤ i then l.set (i - 1) v else l

/-- Conversion discarding the error state of an `Except`. -/
def exceptToOption {ε β : Type} : Except ε β → Option β
  | .error _ => none
  | .ok b => some b

/-- Python's `<` specialised to a `LinearOrder`, for the claims stated over a
totally ordered element type. -/
def ltb {β : Type} [LinearOrder β] : β → β → Bool :=
  fun a b => decide (a < b)

/-- A comparison looking only at the first component: a strict weak order in
which distinct pairs with equal first components compare equal (used to
exercise the tie case of `update`, claim C8). -/
def fstLt : Int × Int → Int × Int → Bool :=
  fun a b => decide (a.1 < b.1)

/-- The two-stack queue `OurQueue`: `in_stack` receives pushes, `out_stack`
serves pops in reversed order. -/
structure OurQueue (α : Type) where
  in_stack : List α
  out_stack : List α
deriving DecidableEq

namespace OurQueue

/-- Python `__len__`. -/
def length (q : OurQueue α) : Nat :=
  q.in_stack.length + q.out_stack.length

/-- Python `push`: `self.in_stack.append(obj)`. -/
def push (q : OurQueue α) (obj : α) : OurQueue α :=
  OurQueue.mk (q.in_stack ++ [obj]) q.out_stack

/-- Python `pop`: refill `out_stack` from the reversed `in_stack` when empty,
then `self.out_stack.pop()` from the end (raising `IndexError` when still
empty, with the refill already performed). -/
def pop (q : OurQueue α) : Except (OurQueue α) (OurQueue α × α) :=
  let q1 := if q.out_stack.isEmpty then OurQueue.mk [] q.in_stack.reverse else q
  match q1.out_stack.getLast? with
  | none => .error q1
  | some v => .ok (OurQueue.mk q1.in_stack q1.out_stack.dropLast, v)

end OurQueue

/-- The indexed binary min-heap `OurHeap`: the element list (sentinel dropped)
and the rank dictionary. -/
structure OurHeap (α : Type) where
  heap : List α
  rank : RankMap α
deriving DecidableEq

namespace OurHeap

variable (lt : α → α → Bool)

/-- Python `__len__`: `len(self.heap) - 1`. -/
def length (s : OurHeap α) : Nat :=
  s.heap.length

/-- Loop of Python `up`: while `i > 1` and `x < heap[i // 2]`, move the parent
down into slot `i`, record its new rank, and halve `i`; afterwards put `x` at
slot `i` and record its rank. -/
def upLoop : List α → RankMap α → α → Nat → Except (List α × RankMap α) (List α × RankMap α)
  | h, r, x, i =>
    if hgt : 1 < i then
      match getSlot h (i / 2) with
      | none => .error (h, r)
      | some p =>
        if lt x p then
          upLoop (setSlot h i p) (rankInsert r p i) x (i / 2)
        else
          .ok (setSlot h i x, rankInsert r x i)
    else
      .ok (setSlot h i x, rankInsert r x i)
termination_by _ _ _ i => i
decreasing_by omega

/-- Python `up(i)`: read `x = self.heap[i]`, then run the sift-up loop. -/
def up (s : OurHeap α) (i : Nat) : Except (OurHeap α) (OurHeap α) :=
  match getSlot s.heap i with
  | none => .error s
  | some x =>
    match upLoop lt s.heap s.rank x i with
    | .error (h, r) => .error (OurHeap.mk h r)
    | .ok (h, r) => .ok (OurHeap.mk h r)

/-- Loop of Python `down`: with `n = len(self.heap)` fixed at entry, compare
the held element `x` against the children at `2i` and `2i+1`; move the right
child up when it is smaller than both `x` and the left child, otherwise the
left child when it is smaller than `x`; else place `x` at `i` and stop. -/
def downLoop : Nat → List α → RankMap α → α → Nat → Except (List α × RankMap α) (List α × RankMap α)
  | n, h, r, x, i =>
    if hi0 : i = 0 then
      -- The loop is only entered after `down` has successfully read slot `i`,
      -- so `i ≥ 1` at every call.  At `i = 0` every path of the Python loop
      -- compares an element against the `None` sentinel (`heap[0]`) and
      -- raises a `TypeError`, so the model returns the error outcome.
      .error (h, r)
    else
      let left := 2 * i
      let right := left + 1
      if hrn : right < n then
        match getSlot h right, getSlot h left with
        | some rv, some lv =>
          if lt rv x && lt rv lv then
            downLoop n (setSlot h i rv) (rankInsert r rv i) x right
          else if lt lv x then
            downLoop n (setSlot h i lv) (rankInsert r lv i) x left
          else
            .ok (setSlot h i x, rankInsert r x i)
        | _, _ => .error (h, r)
      else
        if hln : left < n then
          match getSlot h left with
          | none => .error (h, r)
          | some lv =>
            if lt lv x then
              downLoop n (setSlot h i lv) (rankInsert r lv i) x left
            else
              .ok (setSlot h i x, rankInsert r x i)
        else
          .ok (setSlot h i x, rankInsert r x i)
termination_by n _ _ _ i => n - i
decreasing_by all_goals omega

/-- Python `down(i)`: read `x = self.heap[i]` and `n = len(self.heap)`, then
run the sift-down loop. -/
def down (s : OurHeap α) (i : Nat) : Except (OurHeap α) (OurHeap α) :=
  match getSlot s.heap i with
  | none => .error s
  | some x =>
    match downLoop lt (s.heap.length + 1) s.heap s.rank x i with
    | .error (h, r) => .error (OurHeap.mk h r)
    | .ok (h, r) => .ok (OurHeap.mk h r)

/-- Python `push(x)`: `assert x not in self.rank` (an `AssertionError` leaves
the state untouched); then append `x` at slot `i = len(self.heap)`, record its
rank, and sift it up. -/
def push (s : OurHeap α) (x : α) : Except (OurHeap α) (OurHeap α) :=
  if rankMem s.rank x then .error s
  else
    up lt (OurHeap.mk (s.heap ++ [x]) (rankInsert s.rank x (s.heap.length + 1)))
      (s.heap.length + 1)

/-- Python `pop()`: read the root `self.heap[1]` (an `IndexError` on the empty
heap leaves the state untouched), delete its rank entry, pop the last leaf,
and when the heap stays non-empty move that leaf to the root and sift down. -/
def pop (s : OurHeap α) : Except (OurHeap α) (OurHeap α × α) :=
  match getSlot s.heap 1 with
  | none => .error s
  | some root =>
    let r := rankErase s.rank root
    match s.heap.getLast? with
    | none => .error (OurHeap.mk s.heap r)
    | some x =>
      let h := s.heap.dropLast
      if 1 ≤ h.length then
        match down lt (OurHeap.mk (setSlot h 1 x) (rankInsert r x 1)) 1 with
        | .error e => .error e
        | .ok s2 => .ok (s2, root)
      else
        .ok (OurHeap.mk h r, root)

/-- Python `update(old, new)`: read `i = self.rank[old]` (a `KeyError` leaves
the state untouched), delete `old`'s rank entry, write `new` into slot `i`
(an `IndexError` on an out-of-range slot fires after the deletion), record its
rank, then sift down when `old < new` and up otherwise.  There is no check
that `new` is absent from the heap. -/
def update (s : OurHeap α) (old new : α) : Except (OurHeap α) (OurHeap α) :=
  match rankLookup s.rank old with
  | none => .error s
  | some i =>
    let r := rankErase s.rank old
    if i ≤ s.heap.length then
      let s1 := OurHeap.mk (setSlot s.heap i new) (rankInsert r new i)
      if lt old new then down lt s1 i else up lt s1 i
    else
      .error (OurHeap.mk s.heap r)

/-- Sequential pushes, propagating a failure (used for `__init__`). -/
def pushAll (s : OurHeap α) : List α → Except (OurHeap α) (OurHeap α)
  | [] => .ok s
  | x :: l =>
    match push lt s x with
    | .error e => .error e
    | .ok s2 => pushAll s2 l

/-- Python `__init__(items)`: start from `heap = [None]`, `rank = {}` and push
each item in order. -/
def construct (items : List α) : Except (OurHeap α) (OurHeap α) :=
  pushAll lt (OurHeap.mk [] []) items

/-- Pop `k` times, collecting the returned roots in order. -/
def popN (s : OurHeap α) : Nat → Except (OurHeap α) (OurHeap α × List α)
  | 0 => .ok (s, [])
  | k + 1 =>
    match pop lt s with
    | .error e => .error e
    | .ok (s2, v) =>
      match popN s2 k with
      | .error e => .error e
      | .ok (s3, out) => .ok (s3, v :: out)

/-- Fuel-instrumented variant of `upLoop`, identical except that each loop
iteration consumes one unit of fuel; the outer `none` signals fuel exhaustion.
Used to express that the loop terminates (claim C10). -/
def upLoopFuel : Nat → List α → RankMap α → α → Nat →
    Option (Except (List α × RankMap α) (List α × RankMap α))
  | 0, _, _, _, _ => none
  | fuel + 1, h, r, x, i =>
    if 1 < i then
      match getSlot h (i / 2) with
      | none => some (.error (h, r))
      | some p =>
        if lt x p then
          upLoopFuel fuel (setSlot h i p) (rankInsert r p i) x (i / 2)
        else
          some (.ok (setSlot h i x, rankInsert r x i))
    else
      some (.ok (setSlot h i x, rankInsert r x i))

/-- Fuel-instrumented variant of `downLoop`, identical except that each loop
iteration consumes one unit of fuel; the outer `none` signals fuel exhaustion.
Used to express that the loop terminates (claim C10). -/
def downLoopFuel : Nat → Nat → List α → RankMap α → α → Nat →
    Option (Except (List α × RankMap α) (List α × RankMap α))
  | 0, _, _, _, _, _ => none
  | fuel + 1, n, h, r, x, i =>
    if i = 0 then
      some (.error (h, r))
    else
      let left := 2 * i
      let right := left + 1
      if right < n then
        match getSlot h right, getSlot h left with
        | some rv, some lv =>
          if lt rv x && lt rv lv then
            downLoopFuel fuel n (setSlot h i rv) (rankInsert r rv i) x right
          else if lt lv x then
            downLoopFuel fuel n (setSlot h i lv) (rankInsert r lv i) x left
          else
            some (.ok (setSlot h i x, rankInsert r x i))
        | _, _ => some (.error (h, r))
      else
        if left < n then
          match getSlot h left with
          | none => some (.error (h, r))
          | some lv =>
            if lt lv x then
              downLoopFuel fuel n (setSlot h i lv) (rankInsert r lv i) x left
            else
              some (.ok (setSlot h i x, rankInsert r x i))
        else
          some (.ok (setSlot h i x, rankInsert r x i))

/-- Fuel-instrumented `up`. -/
def upFuel (fuel : Nat) (s : OurHeap α) (i : Nat) : Option (Except (OurHeap α) (OurHeap α)) :=
  match getSlot s.heap i with
  | none => some (.error s)
  | some x =>
    match upLoopFuel lt fuel s.heap s.rank x i with
    | none => none
    | some (.error (h, r)) => some (.error (OurHeap.mk h r))
    | some (.ok (h, r)) => some (.ok (OurHeap.mk h r))

/-- Fuel-instrumented `down`. -/
def downFuel (fuel : Nat) (s : OurHeap α) (i : Nat) : Option (Except (OurHeap α) (OurHeap α)) :=
  match getSlot s.heap i with
  | none => some (.error s)
  | some x =>
    match downLoopFuel lt fuel (s.heap.length + 1) s.heap s.rank x i with
    | none => none
    | some (.error (h, r)) => some (.error (OurHeap.mk h r))
    | some (.ok (h, r)) => some (.ok (OurHeap.mk h r))

end OurHeap

/-- Heap-order invariant: the occupant of every slot is no smaller than the
occupant of its parent slot (for slots `i ≤ 1` the parent read yields `none`,
so the condition is vacuous there). -/
def heapOrd (lt : α → α → Bool) (h : List α) : Prop :=
  ∀ i x p, getSlot h i = some x → getSlot h (i / 2) = some p → lt x p = false

/-- Bijection invariant: the rank dictionary holds exactly the occupied
elements, each bound to the slot that holds it. -/
def rankMatch (r : RankMap α) (h : List α) : Prop :=
  ∀ x i, rankLookup r x = some i ↔ getSlot h i = some x

/-- Executable check for `heapOrd` (used to discharge hypotheses on concrete
states). -/
def heapOrdB (lt : α → α → Bool) (h : List α) : Bool :=
  (List.range (h.length + 1)).all fun i =>
    match getSlot h i, getSlot h (i / 2) with
    | some x, some p => !(lt x p)
    | _, _ => true

/-- Executable check for `rankMatch` (used to discharge hypotheses on concrete
states). -/
def rankMatchB (r : RankMap α) (h : List α) : Bool :=
  (r.all fun kv => decide (getSlot h kv.2 = some kv.1 ∧ rankLookup r kv.1 = some kv.2)) &&
  ((List.range (h.length + 1)).all fun i =>
    match getSlot h i with
    | some x => decide (rankLookup r x = some i)
    | none => true)

/-- Conjunction of the two heap invariants. -/
def heapWF (lt : α → α → Bool) (s : OurHeap α) : Prop :=
  heapOrd lt s.heap ∧ rankMatch s.rank s.heap

/-- Operations of the queue, for stating trace properties. -/
inductive QOp (α : Type) where
  | push (v : α)
  | pop
deriving DecidableEq

/-- Run a list of queue operations, collecting the popped values in order and
propagating the first failure. -/
def runQueue (q : OurQueue α) : List (QOp α) → Except (OurQueue α) (OurQueue α × List α)
  | [] => .ok (q, [])
  | .push v :: ops => runQueue (OurQueue.push q v) ops
  | .pop :: ops =>
    match OurQueue.pop q with
    | .error e => .error e
    | .ok (q2, v) =>
      match runQueue q2 ops with
      | .error e => .error e
      | .ok (q3, out) => .ok (q3, v :: out)

/-- Values pushed by a trace of queue operations, in push order. -/
def pushedVals : List (QOp α) → List α
  | [] => []
  | .push v :: ops => v :: pushedVals ops
  | .pop :: ops => pushedVals ops

/-- Number of pops in a trace of queue operations. -/
def popCount : List (QOp α) → Nat
  | [] => 0
  | .push _ :: ops => popCount ops
  | .pop :: ops => popCount ops + 1

/-- Abstract contents of the queue, oldest first. -/
def OurQueue.elems (q : OurQueue α) : List α :=
  q.out_stack.reverse ++ q.in_stack

/-- Operations of the heap, for stating trace properties. -/
inductive HOp (α : Type) where
  | push (x : α)
  | pop
  | update (old new : α)
deriving DecidableEq

/-- One heap operation guarded by its precondition (`none` when the
precondition fails or the operation raises): a push requires the element
absent, a pop a non-empty heap, an update `old` present and `new` absent.
The update preconditions are the spec's; the code itself checks only `old`. -/
def stepPre (lt : α → α → Bool) (s : OurHeap α) : HOp α → Option (OurHeap α)
  | .push x =>
    if rankMem s.rank x then none else exceptToOption (OurHeap.push lt s x)
  | .pop =>
    match OurHeap.pop lt s with
    | .error _ => none
    | .ok (s2, _) => some s2
  | .update old new =>
    if rankMem s.rank new then none
    else
      match rankLookup s.rank old with
      | none => none
      | some _ => exceptToOption (OurHeap.update lt s old new)

/-- Run a list of heap operations under their preconditions. -/
def runPre (lt : α → α → Bool) (s : OurHeap α) : List (HOp α) → Option (OurHeap α)
  | [] => some s
  | op :: ops =>
    match stepPre lt s op with
    | none => none
    | some s2 => runPre lt s2 ops

/-! ### Basic lemmas about the dictionary model -/

theorem rankLookup_rankInsert_self (r : RankMap α) (x : α) (v : Nat) :
    rankLookup (rankInsert r x v) x = some v := by
  induction r with
  | nil => simp [rankInsert, rankLookup]
  | cons kv r ih =>
    obtain ⟨k, w⟩ := kv
    by_cases hk : k = x <;> simp [rankInsert, rankLookup, hk, ih]

theorem rankLookup_rankInsert_ne (r : RankMap α) {x y : α} (v : Nat) (hxy : x ≠ y) :
    rankLookup (rankInsert r x v) y = rankLookup r y := by
  induction r with
  | nil => simp [rankInsert, rankLookup, hxy]
  | cons kv r ih =>
    obtain ⟨k, w⟩ := kv
    by_cases hk : k = x <;> simp [rankInsert, rankLookup, hk, hxy, ih]

theorem rankLookup_rankErase_self (r : RankMap α) (x : α) :
    rankLookup (rankErase r x) x = none := by
  induction r with
  | nil => simp [rankErase, rankLookup]
  | cons kv r ih =>
    obtain ⟨k, w⟩ := kv
    by_cases hk : k = x <;> simp [rankErase, rankLookup, hk, ih]

theorem rankLookup_rankErase_ne (r : RankMap α) {x y : α} (hxy : x ≠ y) :
    rankLookup (rankErase r x) y = rankLookup r y := by
  induction r with
  | nil => simp [rankErase, rankLookup]
  | cons kv r ih =>
    obtain ⟨k, w⟩ := kv
    by_cases hk : k = x <;> simp [rankErase, rankLookup, hk, hxy, ih]

theorem rankInsert_rankInsert_self (r : RankMap α) (x : α) (v : Nat) :
    rankInsert (rankInsert r x v) x v = rankInsert r x v := by
  induction r with
  | nil => simp [rankInsert]
  | cons kv r ih =>
    obtain ⟨k, w⟩ := kv
    by_cases hk : k = x <;> simp [rankInsert, hk, ih]

theorem rankMem_iff {r : RankMap α} {x : α} :
    rankMem r x = true ↔ ∃ v, rankLookup r x = some v := by
  rw [rankMem, Option.isSome_iff_exists]

/-! ### Basic lemmas about slot access -/

theorem getSlot_bounds {l : List α} {i : Nat} {x : α} (h : getSlot l i = some x) :
    1 ≤ i ∧ i ≤ l.length := by
  unfold getSlot at h
  split at h
  · rename_i h1
    obtain ⟨hlt, _⟩ := List.getElem?_eq_some.mp h
    exact ⟨h1, by omega⟩
  · exact absurd h (by simp)

theorem getSlot_nil (i : Nat) : getSlot ([] : List α) i = none := by
  unfold getSlot
  split <;> simp

theorem getSlot_isSome_of_bounds {l : List α} {i : Nat} (h1 : 1 ≤ i) (h2 : i ≤ l.length) :
    ∃ x, getSlot l i = some x := by
  unfold getSlot
  rw [if_pos h1]
  have hlt : i - 1 < l.length := by omega
  exact ⟨l[i - 1], List.getElem?_eq_getElem hlt⟩

@[simp] theorem length_setSlot (l : List α) (i : Nat) (v : α) :
    (setSlot l i v).length = l.length := by
  unfold setSlot
  split <;> simp

theorem getSlot_setSlot_self {l : List α} {i : Nat} (h1 : 1 ≤ i) (h2 : i ≤ l.length) (v : α) :
    getSlot (setSlot l i v) i = some v := by
  unfold getSlot setSlot
  rw [if_pos h1, if_pos h1]
  exact List.getElem?_set_self (by omega)

theorem getSlot_setSlot_ne {l : List α} {i j : Nat} (hij : i ≠ j) (v : α) :
    getSlot (setSlot l i v) j = getSlot l j := by
  unfold getSlot setSlot
  by_cases h1 : 1 ≤ i
  · rw [if_pos h1]
    by_cases h2 : 1 ≤ j
    · rw [if_pos h2, if_pos h2, List.getElem?_set_ne (by omega)]
    · rw [if_neg h2, if_neg h2]
  · rw [if_neg h1]

theorem getSlot_append_left {l : List α} {i : Nat} (h : i ≤ l.length) (x : α) :
    getSlot (l ++ [x]) i = getSlot l i := by
  unfold getSlot
  by_cases h1 : 1 ≤ i
  · rw [if_pos h1, if_pos h1, List.getElem?_append_left (by omega)]
  · rw [if_neg h1, if_neg h1]

theorem getSlot_append_last (l : List α) (x : α) :
    getSlot (l ++ [x]) (l.length + 1) = some x := by
  unfold getSlot
  rw [if_pos (by omega)]
  simp

theorem getSlot_append_none {l : List α} {i : Nat} (h : l.length + 1 < i) (x : α) :
    getSlot (l ++ [x]) i = none := by
  unfold getSlot
  rw [if_pos (by omega)]
  refine List.getElem?_eq_none ?_
  simp
  omega

theorem getSlot_dropLast {l : List α} {i : Nat} (h : i + 1 ≤ l.length) :
    getSlot l.dropLast i = getSlot l i := by
  unfold getSlot
  by_cases h1 : 1 ≤ i
  · rw [if_pos h1, if_pos h1, List.dropLast_eq_take, List.getElem?_take, if_pos (by omega)]
  · rw [if_neg h1, if_neg h1]

theorem getSlot_dropLast_none {l : List α} {i : Nat} (h : l.length ≤ i) :
    getSlot l.dropLast i = none := by
  unfold getSlot
  split
  · refine List.getElem?_eq_none ?_
    simp [List.length_dropLast]
    omega
  · rfl

/-- Replacing the occupant `a` of slot `i` by `v` exchanges `a` for `v` in the
multiset of elements. -/
theorem mset_setSlot {l : List α} {i : Nat} {a : α} (h : getSlot l i = some a) (v : α) :
    ((setSlot l i v : List α) : Multiset α) + {a} = (l : Multiset α) + {v} := by
  obtain ⟨h1, h2⟩ := getSlot_bounds h
  unfold getSlot at h
  rw [if_pos h1] at h
  unfold setSlot
  rw [if_pos h1]
  generalize i - 1 = n at h
  clear h1 h2
  induction l generalizing n with
  | nil => simp at h
  | cons b l ih =>
    cases n with
    | zero =>
      simp only [List.getElem?_cons_zero] at h
      injection h with h
      rw [h]
      simp only [List.set]
      rw [← Multiset.cons_coe, ← Multiset.cons_coe, add_comm _ ({a} : Multiset α),
        add_comm _ ({v} : Multiset α), Multiset.singleton_add, Multiset.singleton_add]
      exact Multiset.cons_swap a v ↑l
    | succ n =>
      simp only [List.getElem?_cons_succ] at h
      have hi := ih n h
      simp only [List.set]
      rw [← Multiset.cons_coe, ← Multiset.cons_coe, Multiset.cons_add, Multiset.cons_add, hi]

/-! ### The two invariants of the heap -/

/-- Under the bijection invariant an element occupies at most one slot. -/
theorem rankMatch_slot_unique {r : RankMap α} {h : List α} (hm : rankMatch r h)
    {x : α} {i j : Nat} (hi : getSlot h i = some x) (hj : getSlot h j = some x) : i = j := by
  have h1 := (hm x i).mpr hi
  have h2 := (hm x j).mpr hj
  rw [h1] at h2
  injection h2

/-- Under the bijection invariant, dictionary membership coincides with
occupancy of some slot. -/
theorem rankMatch_mem_iff {r : RankMap α} {h : List α} (hm : rankMatch r h) {x : α} :
    rankMem r x = true ↔ ∃ i, getSlot h i = some x := by
  rw [rankMem_iff]
  constructor
  · rintro ⟨v, hv⟩
    exact ⟨v, (hm x v).mp hv⟩
  · rintro ⟨i, hi⟩
    exact ⟨i, (hm x i).mpr hi⟩

theorem heapOrd_of_heapOrdB {lt : α → α → Bool} {h : List α}
    (hb : heapOrdB lt h = true) : heapOrd lt h := by
  intro i x p hx hp
  obtain ⟨h1, h2⟩ := getSlot_bounds hx
  have hi : i ∈ List.range (h.length + 1) := List.mem_range.mpr (by omega)
  have := (List.all_eq_true.mp hb) i hi
  rw [hx, hp] at this
  simpa using this

theorem rankLookup_mem {r : RankMap α} {x : α} {v : Nat}
    (h : rankLookup r x = some v) : (x, v) ∈ r := by
  induction r with
  | nil => simp [rankLookup] at h
  | cons kv r ih =>
    obtain ⟨k, w⟩ := kv
    by_cases hk : k = x
    · subst hk
      simp [rankLookup] at h
      simp [h]
    · simp [rankLookup, hk] at h
      simp [ih h]

theorem rankMatch_of_rankMatchB {r : RankMap α} {h : List α}
    (hb : rankMatchB r h = true) : rankMatch r h := by
  rw [rankMatchB, Bool.and_eq_true] at hb
  obtain ⟨hfwd, hbwd⟩ := hb
  intro x i
  constructor
  · intro hx
    have hmem := rankLookup_mem hx
    have := (List.all_eq_true.mp hfwd) (x, i) hmem
    exact (of_decide_eq_true this).1
  · intro hx
    obtain ⟨h1, h2⟩ := getSlot_bounds hx
    have hi : i ∈ List.range (h.length + 1) := List.mem_range.mpr (by omega)
    have := (List.all_eq_true.mp hbwd) i hi
    rw [hx] at this
    exact of_decide_eq_true this

/-! ### Totality of the sift loops on valid slots -/

theorem upLoop_ok (lt : α → α → Bool) (h : List α) (r : RankMap α) (x : α) {i : Nat}
    (h1 : 1 ≤ i) (h2 : i ≤ h.length) :
    ∃ out, OurHeap.upLoop lt h r x i = .ok out := by
  have key : ∀ (i : Nat) (h : List α) (r : RankMap α), 1 ≤ i → i ≤ h.length →
      ∃ out, OurHeap.upLoop lt h r x i = .ok out := by
    intro i
    induction i using Nat.strong_induction_on with
    | _ i ih =>
      intro h r h1 h2
      rw [OurHeap.upLoop]
      by_cases hgt : 1 < i
      · obtain ⟨p, hp⟩ := getSlot_isSome_of_bounds (l := h) (i := i / 2) (by omega) (by omega)
        simp only [dif_pos hgt, hp]
        by_cases hlt : lt x p = true
        · rw [if_pos hlt]
          exact ih (i / 2) (by omega) _ _ (by omega) (by simp; omega)
        · rw [if_neg hlt]
          exact ⟨_, rfl⟩
      · simp only [dif_neg hgt]
        exact ⟨_, rfl⟩
  exact key i h r h1 h2

theorem downLoop_ok (lt : α → α → Bool) {n : Nat} (h : List α) (r : RankMap α) (x : α) {i : Nat}
    (h1 : 1 ≤ i) (hn : n = h.length + 1) :
    ∃ out, OurHeap.downLoop lt n h r x i = .ok out := by
  have key : ∀ (d i : Nat) (h : List α) (r : RankMap α), n - i = d → 1 ≤ i →
      n = h.length + 1 → ∃ out, OurHeap.downLoop lt n h r x i = .ok out := by
    intro d
    induction d using Nat.strong_induction_on with
    | _ d ih =>
      intro i h r hd h1 hlen
      rw [OurHeap.downLoop]
      simp only [dif_neg (show ¬ i = 0 by omega)]
      by_cases hrn : 2 * i + 1 < n
      · obtain ⟨rv, hrv⟩ := getSlot_isSome_of_bounds (l := h) (i := 2 * i + 1)
          (by omega) (by omega)
        obtain ⟨lv, hlv⟩ := getSlot_isSome_of_bounds (l := h) (i := 2 * i)
          (by omega) (by omega)
        simp only [dif_pos hrn, hrv, hlv]
        by_cases hc1 : (lt rv x && lt rv lv) = true
        · rw [if_pos hc1]
          exact ih (n - (2 * i + 1)) (by omega) _ _ _ rfl (by omega) (by simp [hlen])
        · rw [if_neg hc1]
          by_cases hc2 : lt lv x = true
          · rw [if_pos hc2]
            exact ih (n - 2 * i) (by omega) _ _ _ rfl (by omega) (by simp [hlen])
          · rw [if_neg hc2]
            exact ⟨_, rfl⟩
      · simp only [dif_neg hrn]
        by_cases hln : 2 * i < n
        · obtain ⟨lv, hlv⟩ := getSlot_isSome_of_bounds (l := h) (i := 2 * i)
            (by omega) (by omega)
          simp only [dif_pos hln, hlv]
          by_cases hc2 : lt lv x = true
          · rw [if_pos hc2]
            exact ih (n - 2 * i) (by omega) _ _ _ rfl (by omega) (by simp [hlen])
          · rw [if_neg hc2]
            exact ⟨_, rfl⟩
        · simp only [dif_neg hln]
          exact ⟨_, rfl⟩
  exact key (n - i) i h r rfl h1 hn

theorem up_ok (lt : α → α → Bool) (s : OurHeap α) {i : Nat}
    (h1 : 1 ≤ i) (h2 : i ≤ s.heap.length) :
    ∃ s2, OurHeap.up lt s i = .ok s2 := by
  obtain ⟨x, hx⟩ := getSlot_isSome_of_bounds h1 h2
  obtain ⟨out, hout⟩ := upLoop_ok lt s.heap s.rank x h1 h2
  simp only [OurHeap.up, hx, hout]
  exact ⟨_, rfl⟩

theorem down_ok (lt : α → α → Bool) (s : OurHeap α) {i : Nat}
    (h1 : 1 ≤ i) (h2 : i ≤ s.heap.length) :
    ∃ s2, OurHeap.down lt s i = .ok s2 := by
  obtain ⟨x, hx⟩ := getSlot_isSome_of_bounds h1 h2
  obtain ⟨out, hout⟩ := downLoop_ok lt s.heap s.rank x h1 rfl
  simp only [OurHeap.down, hx, hout]
  exact ⟨_, rfl⟩

/-! ### Fail-fast behaviour (claims C3, C4, C9) -/

/-- Claim C4: pushing an element already present in the heap, updating with an
`old` that is not present, popping an empty heap, and popping an empty queue
each raise a detectable error (the `.error` outcome of the model) and return
no value. -/
theorem claim_C4_fail_fast {α : Type} [DecidableEq α] (lt : α → α → Bool) :
    (∀ (s : OurHeap α) (x : α), rankMem s.rank x = true →
      ∃ e, OurHeap.push lt s x = .error e) ∧
    (∀ (s : OurHeap α) (old new : α), rankLookup s.rank old = none →
      ∃ e, OurHeap.update lt s old new = .error e) ∧
    (∀ s : OurHeap α, s.heap = [] → ∃ e, OurHeap.pop lt s = .error e) ∧
    (∀ q : OurQueue α, OurQueue.length q = 0 → ∃ e, OurQueue.pop q = .error e) := by
  refine ⟨?_, ?_, ?_, ?_⟩
  · intro s x hx
    rw [OurHeap.push, if_pos hx]
    exact ⟨s, rfl⟩
  · intro s old new hold
    simp only [OurHeap.update, hold]
    exact ⟨s, rfl⟩
  · intro s hs
    simp only [OurHeap.pop, hs, getSlot_nil]
    exact ⟨s, rfl⟩
  · intro q hq
    obtain ⟨ins, outs⟩ := q
    simp only [OurQueue.length] at hq
    have h1 : ins = [] := List.length_eq_zero.mp (by omega)
    have h2 : outs = [] := List.length_eq_zero.mp (by omega)
    subst h1
    subst h2
    simp only [OurQueue.pop, List.isEmpty_nil, List.reverse_nil, if_true, List.getLast?_nil]
    exact ⟨_, rfl⟩

/-- Witness for C4 at concrete inputs. -/
theorem claim_C4_fail_fast_witness :
    (∃ e, OurHeap.push (ltb (β := Int)) (OurHeap.mk [5] [(5, 1)]) 5 = .error e) ∧
    (∃ e, OurHeap.update (ltb (β := Int)) (OurHeap.mk [5] [(5, 1)]) 7 9 = .error e) ∧
    (∃ e, OurHeap.pop (ltb (β := Int)) (OurHeap.mk [] []) = .error e) ∧
    (∃ e, OurQueue.pop (OurQueue.mk ([] : List Int) []) = .error e) := by
  obtain ⟨h1, h2, h3, h4⟩ := claim_C4_fail_fast (ltb (β := Int))
  exact ⟨h1 _ 5 (by decide), h2 _ 7 9 (by decide), h3 _ rfl, h4 _ rfl⟩

/-- Claim C9: each of the four failing calls leaves the observable state of
the structure exactly as it was: the error outcome carries the unchanged
state. -/
theorem claim_C9_failed_call_state_unchanged {α : Type} [DecidableEq α] (lt : α → α → Bool) :
    (∀ s : OurHeap α, s.heap = [] → OurHeap.pop lt s = .error s) ∧
    (∀ (s : OurHeap α) (x : α), rankMem s.rank x = true → OurHeap.push lt s x = .error s) ∧
    (∀ (s : OurHeap α) (old new : α), rankLookup s.rank old = none →
      OurHeap.update lt s old new = .error s) ∧
    (∀ q : OurQueue α, OurQueue.length q = 0 → OurQueue.pop q = .error q) := by
  refine ⟨?_, ?_, ?_, ?_⟩
  · intro s hs
    simp only [OurHeap.pop, hs, getSlot_nil]
  · intro s x hx
    rw [OurHeap.push, if_pos hx]
  · intro s old new hold
    simp only [OurHeap.update, hold]
  · intro q hq
    obtain ⟨ins, outs⟩ := q
    simp only [OurQueue.length] at hq
    have h1 : ins = [] := List.length_eq_zero.mp (by omega)
    have h2 : outs = [] := List.length_eq_zero.mp (by omega)
    subst h1
    subst h2
    simp only [OurQueue.pop, List.isEmpty_nil, List.reverse_nil, if_true, List.getLast?_nil]

/-- Witness for C9 at concrete inputs. -/
theorem claim_C9_failed_call_state_unchanged_witness :
    OurHeap.pop (ltb (β := Int)) (OurHeap.mk [] [(3, 9)]) = .error (OurHeap.mk [] [(3, 9)]) ∧
    OurHeap.push (ltb (β := Int)) (OurHeap.mk [4, 7] [(4, 1), (7, 2)]) 7 =
      .error (OurHeap.mk [4, 7] [(4, 1), (7, 2)]) ∧
    OurHeap.update (ltb (β := Int)) (OurHeap.mk [4, 7] [(4, 1), (7, 2)]) 9 1 =
      .error (OurHeap.mk [4, 7] [(4, 1), (7, 2)]) ∧
    OurQueue.pop (OurQueue.mk ([] : List Int) []) = .error (OurQueue.mk [] []) := by
  obtain ⟨h1, h2, h3, h4⟩ := claim_C9_failed_call_state_unchanged (ltb (β := Int))
  exact ⟨h1 _ rfl, h2 _ 7 (by decide), h3 _ 9 1 (by decide), h4 _ rfl⟩

/-- Claim C3 counterexample: in the heap built by pushing 10, 20, 30, element
10 occupies slot 1 and element 30 occupies slot 3; the call `update 30 10`
names a `new` already present at a different slot, yet completes with no
error at all, returning a corrupted state in which 10 occupies two slots
while the rank dictionary points only at one of them. -/
theorem claim_C3_counterexample :
    OurHeap.construct (ltb (β := Int)) [10, 20, 30] =
      .ok (OurHeap.mk [10, 20, 30] [(10, 1), (20, 2), (30, 3)]) ∧
    rankLookup ([(10, 1), (20, 2), (30, 3)] : RankMap Int) 30 = some 3 ∧
    rankLookup ([(10, 1), (20, 2), (30, 3)] : RankMap Int) 10 = some 1 ∧
    OurHeap.update (ltb (β := Int)) (OurHeap.mk [10, 20, 30] [(10, 1), (20, 2), (30, 3)]) 30 10 =
      .ok (OurHeap.mk [10, 20, 10] [(10, 3), (20, 2)]) := by
  refine ⟨?_, by decide, by decide, ?_⟩
  · simp [OurHeap.construct, OurHeap.pushAll, OurHeap.push, OurHeap.up, OurHeap.upLoop,
      rankMem, rankLookup, rankInsert, getSlot, setSlot, ltb]
  · simp [OurHeap.update, OurHeap.up, OurHeap.upLoop, OurHeap.down, OurHeap.downLoop,
      rankMem, rankLookup, rankInsert, rankErase, getSlot, setSlot, ltb]

/-- Claim C3 (amended): `update old new` performs no duplicate check on `new`:
whenever `old` is present at a valid slot, the call completes and returns a
state — never an error — even when `new` already occupies a different slot of
the heap. -/
theorem claim_C3_amended_no_duplicate_check {α : Type} [DecidableEq α] (lt : α → α → Bool)
    (s : OurHeap α) (old new : α) {i j : Nat}
    (hold : rankLookup s.rank old = some i)
    (hi1 : 1 ≤ i) (hi2 : i ≤ s.heap.length)
    (hnew : rankLookup s.rank new = some j) (hij : j ≠ i) :
    ∃ s2, OurHeap.update lt s old new = .ok s2 := by
  simp only [OurHeap.update, hold]
  rw [if_pos hi2]
  by_cases hc : lt old new = true
  · rw [if_pos hc]
    exact down_ok lt _ hi1 (by simpa using hi2)
  · rw [if_neg hc]
    exact up_ok lt _ hi1 (by simpa using hi2)

/-- Witness for the amended C3 at the counterexample input. -/
theorem claim_C3_amended_no_duplicate_check_witness :
    ∃ s2, OurHeap.update (ltb (β := Int))
      (OurHeap.mk [10, 20, 30] [(10, 1), (20, 2), (30, 3)]) 30 10 = .ok s2 :=
  claim_C3_amended_no_duplicate_check (ltb (β := Int))
    (OurHeap.mk [10, 20, 30] [(10, 1), (20, 2), (30, 3)]) 30 10 (i := 3) (j := 1)
    (by decide) (by decide) (by decide) (by decide) (by decide)

/-! ### Termination of the sift loops (claim C10) -/

theorem upLoopFuel_eq (lt : α → α → Bool) :
    ∀ (i : Nat) (h : List α) (r : RankMap α) (x : α) (fuel : Nat), 1 ≤ i → i ≤ fuel →
    OurHeap.upLoopFuel lt fuel h r x i = some (OurHeap.upLoop lt h r x i) := by
  intro i
  induction i using Nat.strong_induction_on with
  | _ i ih =>
    intro h r x fuel h1 hf
    obtain ⟨f, rfl⟩ : ∃ f, fuel = f + 1 := ⟨fuel - 1, by omega⟩
    rw [OurHeap.upLoop]
    simp only [OurHeap.upLoopFuel]
    by_cases hgt : 1 < i
    · simp only [if_pos hgt, dif_pos hgt]
      cases hgs : getSlot h (i / 2) with
      | none => rfl
      | some p =>
        by_cases hlt : lt x p = true
        · simp only [if_pos hlt]
          exact ih (i / 2) (by omega) _ _ _ f (by omega) (by omega)
        · simp only [if_neg hlt]
    · simp only [if_neg hgt, dif_neg hgt]

theorem downLoopFuel_eq (lt : α → α → Bool) {n : Nat} :
    ∀ (fuel i : Nat) (h : List α) (r : RankMap α) (x : α), 1 ≤ i → n ≤ fuel + i → 1 ≤ fuel →
    OurHeap.downLoopFuel lt fuel n h r x i = some (OurHeap.downLoop lt n h r x i) := by
  intro fuel
  induction fuel with
  | zero => intro i h r x _ _ hf; omega
  | succ f ih =>
    intro i h r x h1 hfn _
    rw [OurHeap.downLoop]
    simp only [OurHeap.downLoopFuel]
    simp only [if_neg (show ¬ i = 0 by omega), dif_neg (show ¬ i = 0 by omega)]
    by_cases hrn : 2 * i + 1 < n
    · simp only [if_pos hrn, dif_pos hrn]
      cases hgr : getSlot h (2 * i + 1) with
      | none => rfl
      | some rv =>
        cases hgl : getSlot h (2 * i) with
        | none => rfl
        | some lv =>
          by_cases hc1 : (lt rv x && lt rv lv) = true
          · simp only [if_pos hc1]
            exact ih (2 * i + 1) _ _ _ (by omega) (by omega) (by omega)
          · simp only [if_neg hc1]
            by_cases hc2 : lt lv x = true
            · simp only [if_pos hc2]
              exact ih (2 * i) _ _ _ (by omega) (by omega) (by omega)
            · simp only [if_neg hc2]
    · simp only [if_neg hrn, dif_neg hrn]
      by_cases hln : 2 * i < n
      · simp only [if_pos hln, dif_pos hln]
        cases hgl : getSlot h (2 * i) with
        | none => rfl
        | some lv =>
          by_cases hc2 : lt lv x = true
          · simp only [if_pos hc2]
            exact ih (2 * i) _ _ _ (by omega) (by omega) (by omega)
          · simp only [if_neg hc2]
      · simp only [if_neg hln, dif_neg hln]

/-- Claim C10: both sift loops terminate.  `down` from any slot `i ≥ 1` runs
for at most `len(heap) - i` iterations, since the index moves to `2i` or
`2i + 1`, strictly increasing below the bound `n`: any fuel of at least
`n - i` units (`n = len(self.heap)`) makes the fuel-instrumented variant
agree with the loop, never exhausting.  `up` from slot `i` halves the index
toward 1 each iteration, so a fuel of `i` units suffices. -/
theorem claim_C10_sift_loops_terminate {α : Type} [DecidableEq α] (lt : α → α → Bool) :
    (∀ (s : OurHeap α) (i fuel : Nat), 1 ≤ i → s.heap.length + 1 ≤ fuel + i → 1 ≤ fuel →
      OurHeap.downFuel lt fuel s i = some (OurHeap.down lt s i)) ∧
    (∀ (s : OurHeap α) (i fuel : Nat), 1 ≤ i → i ≤ fuel →
      OurHeap.upFuel lt fuel s i = some (OurHeap.up lt s i)) := by
  constructor
  · intro s i fuel h1 h2 h3
    rw [OurHeap.down, OurHeap.downFuel]
    cases hgs : getSlot s.heap i with
    | none => rfl
    | some x =>
      dsimp only
      rw [downLoopFuel_eq lt fuel i s.heap s.rank x h1 h2 h3]
      cases OurHeap.downLoop lt (s.heap.length + 1) s.heap s.rank x i with
      | error e => obtain ⟨eh, er⟩ := e; rfl
      | ok o => obtain ⟨oh, orr⟩ := o; rfl
  · intro s i fuel h1 h2
    rw [OurHeap.up, OurHeap.upFuel]
    cases hgs : getSlot s.heap i with
    | none => rfl
    | some x =>
      dsimp only
      rw [upLoopFuel_eq lt i s.heap s.rank x fuel h1 h2]
      cases OurHeap.upLoop lt s.heap s.rank x i with
      | error e => obtain ⟨eh, er⟩ := e; rfl
      | ok o => obtain ⟨oh, orr⟩ := o; rfl

/-- Witness for C10 at a concrete heap, slot and fuel. -/
theorem claim_C10_sift_loops_terminate_witness :
    OurHeap.downFuel (ltb (β := Int)) 4
      (OurHeap.mk [5, 2, 9] [(5, 1), (2, 2), (9, 3)]) 1 =
      some (OurHeap.down ltb (OurHeap.mk [5, 2, 9] [(5, 1), (2, 2), (9, 3)]) 1) ∧
    OurHeap.upFuel (ltb (β := Int)) 3
      (OurHeap.mk [5, 2, 9] [(5, 1), (2, 2), (9, 3)]) 3 =
      some (OurHeap.up ltb (OurHeap.mk [5, 2, 9] [(5, 1), (2, 2), (9, 3)]) 3) := by
  obtain ⟨hd, hu⟩ := claim_C10_sift_loops_terminate (ltb (β := Int))
  exact ⟨hd _ 1 4 (by decide) (by decide) (by decide), hu _ 3 3 (by decide) (by decide)⟩

/-! ### The two-stack queue is a FIFO queue (claim C7) -/

theorem elems_push (q : OurQueue α) (v : α) :
    (OurQueue.push q v).elems = q.elems ++ [v] := by
  obtain ⟨ins, outs⟩ := q
  simp [OurQueue.push, OurQueue.elems]

theorem pop_elems {q q2 : OurQueue α} {v : α} (h : OurQueue.pop q = .ok (q2, v)) :
    q.elems = v :: q2.elems := by
  obtain ⟨ins, outs⟩ := q
  simp only [OurQueue.pop] at h
  by_cases ho : outs.isEmpty
  · rw [if_pos ho] at h
    rw [List.isEmpty_iff] at ho
    subst ho
    cases ins with
    | nil => simp at h
    | cons a t =>
      rw [List.getLast?_reverse] at h
      simp only [List.head?_cons] at h
      rw [List.dropLast_reverse] at h
      injection h with h
      injection h with h1 h2
      subst h2
      rw [← h1]
      simp [OurQueue.elems]
  · rw [if_neg ho] at h
    have hne : outs ≠ [] := by
      intro hc
      subst hc
      simp at ho
    cases hgl : outs.getLast? with
    | none =>
      rw [List.getLast?_eq_getLast outs hne] at hgl
      cases hgl
    | some w =>
      rw [hgl] at h
      injection h with h
      injection h with h1 h2
      subst h2
      rw [← h1]
      have hw : w = outs.getLast hne := by
        rw [List.getLast?_eq_getLast outs hne] at hgl
        injection hgl with hgl
        exact hgl.symm
      subst hw
      simp only [OurQueue.elems]
      conv_lhs => rw [← List.dropLast_append_getLast hne]
      rw [List.reverse_append]
      simp

theorem runQueue_ok {ops : List (QOp α)} :
    ∀ (q q3 : OurQueue α) (outs : List α), runQueue q ops = .ok (q3, outs) →
    outs = (q.elems ++ pushedVals ops).take (popCount ops) ∧
    q3.elems = (q.elems ++ pushedVals ops).drop (popCount ops) := by
  induction ops with
  | nil =>
    intro q q3 outs h
    simp only [runQueue] at h
    injection h with h
    injection h with h1 h2
    subst h2
    rw [← h1]
    simp [pushedVals, popCount]
  | cons op ops ih =>
    intro q q3 outs h
    cases op with
    | push v =>
      simp only [runQueue] at h
      obtain ⟨h1, h2⟩ := ih _ _ _ h
      rw [elems_push] at h1 h2
      constructor
      · rw [h1]
        simp [pushedVals, popCount]
      · rw [h2]
        simp [pushedVals, popCount]
    | pop =>
      simp only [runQueue] at h
      cases hp : OurQueue.pop q with
      | error e => rw [hp] at h; cases h
      | ok p =>
        obtain ⟨q2, v⟩ := p
        rw [hp] at h
        dsimp only at h
        cases hr : runQueue q2 ops with
        | error e => rw [hr] at h; cases h
        | ok p2 =>
          obtain ⟨q3x, outs2⟩ := p2
          rw [hr] at h
          dsimp only at h
          injection h with h
          injection h with h1 h2
          subst h2
          rw [← h1]
          obtain ⟨g1, g2⟩ := ih _ _ _ hr
          have he := pop_elems hp
          rw [he]
          constructor
          · rw [g1]
            simp [pushedVals, popCount, List.take_succ_cons]
          · rw [g2]
            simp [pushedVals, popCount, List.drop_succ_cons]

/-- Claim C7: for every sequence of queue operations in which each pop finds a
non-empty queue (equivalently, in which the run raises no error), the popped
values are exactly the pushed values in push order: the output list is the
first `popCount` pushed values. -/
theorem claim_C7_queue_fifo {α : Type} [DecidableEq α] (ops : List (QOp α))
    (q3 : OurQueue α) (outs : List α)
    (h : runQueue (OurQueue.mk [] []) ops = .ok (q3, outs)) :
    outs = (pushedVals ops).take (popCount ops) := by
  have := (runQueue_ok (OurQueue.mk [] []) q3 outs h).1
  simpa [OurQueue.elems] using this

/-- Witness for C7 on the trace push 1, push 2, pop, push 3, pop, pop. -/
theorem claim_C7_queue_fifo_witness :
    ([1, 2, 3] : List Int) =
      (pushedVals [QOp.push (1 : Int), QOp.push 2, QOp.pop, QOp.push 3, QOp.pop, QOp.pop]).take
        (popCount [QOp.push (1 : Int), QOp.push 2, QOp.pop, QOp.push 3, QOp.pop, QOp.pop]) :=
  claim_C7_queue_fifo _ (OurQueue.mk [] []) [1, 2, 3] rfl

/-! ### One iteration of sift-down moves the smaller child (claim C6) -/

theorem setSlot_setSlot (l : List α) (i : Nat) (v w : α) :
    setSlot (setSlot l i v) i w = setSlot l i w := by
  unfold setSlot
  split <;> simp [List.set_set]

/-- Claim C6: over a linearly ordered element type, one iteration of the
sift-down loop from slot `i` moves a child into slot `i` exactly when some
existing child is smaller than the held element `x`; when both children exist
the moved element is the smaller of the two (the right child only when it is
strictly smaller than both `x` and the left child, the left child otherwise),
its rank is set to `i`, and the descent continues into that child's former
slot; when only the left child exists it moves exactly when it is smaller
than `x`; otherwise the loop stops and places `x` at `i`. -/
theorem claim_C6_down_moves_smaller_child {β : Type} [DecidableEq β] [LinearOrder β] :
    (∀ (n : Nat) (h : List β) (r : RankMap β) (x : β) (i : Nat) (lv rv : β), 1 ≤ i →
      getSlot h (2 * i) = some lv → getSlot h (2 * i + 1) = some rv → 2 * i + 1 < n →
      OurHeap.downLoop ltb n h r x i =
        (if lv < x ∨ rv < x then
          OurHeap.downLoop ltb n (setSlot h i (if rv < lv then rv else lv))
            (rankInsert r (if rv < lv then rv else lv) i) x
            (if rv < lv then 2 * i + 1 else 2 * i)
        else .ok (setSlot h i x, rankInsert r x i))) ∧
    (∀ (n : Nat) (h : List β) (r : RankMap β) (x : β) (i : Nat) (lv : β), 1 ≤ i →
      getSlot h (2 * i) = some lv → ¬ 2 * i + 1 < n → 2 * i < n →
      OurHeap.downLoop ltb n h r x i =
        (if lv < x then
          OurHeap.downLoop ltb n (setSlot h i lv) (rankInsert r lv i) x (2 * i)
        else .ok (setSlot h i x, rankInsert r x i))) := by
  constructor
  · intro n h r x i lv rv h1 hgl hgr hrn
    rw [OurHeap.downLoop]
    simp only [dif_neg (show ¬ i = 0 by omega), dif_pos hrn, hgl, hgr]
    by_cases hrl : rv < lv
    · by_cases hrx : rv < x
      · have hcond : lv < x ∨ rv < x := Or.inr hrx
        simp [ltb, hrl, hrx, hcond]
      · have hlx : ¬ lv < x := fun hc => hrx (lt_trans hrl hc)
        simp [ltb, hrl, hrx, hlx]
    · by_cases hlx : lv < x
      · have hcond : lv < x ∨ rv < x := Or.inl hlx
        have hno : ¬ (rv < x ∧ rv < lv) := fun hc => hrl hc.2
        simp [ltb, hrl, hlx]
      · have hrx : ¬ rv < x := fun hc => hlx (lt_of_le_of_lt (le_of_not_lt hrl) hc)
        simp [ltb, hrl, hlx, hrx]
  · intro n h r x i lv h1 hgl hrn hln
    rw [OurHeap.downLoop]
    simp only [dif_neg (show ¬ i = 0 by omega), dif_neg hrn, dif_pos hln, hgl]
    by_cases hlx : lv < x
    · simp [ltb, hlx]
    · simp [ltb, hlx]

/-- Witness for C6: both-children case on heap `[9, 2, 7]` (slots 2 and 3
hold 2 and 7), and single-child case on heap `[9, 2]`. -/
theorem claim_C6_down_moves_smaller_child_witness :
    (OurHeap.downLoop (ltb (β := Int)) 4 [9, 2, 7] [] 9 1 =
      (if (2 : Int) < 9 ∨ (7 : Int) < 9 then
        OurHeap.downLoop ltb 4 (setSlot [9, 2, 7] 1 (if (7 : Int) < 2 then 7 else 2))
          (rankInsert [] (if (7 : Int) < 2 then 7 else 2) 1) 9
          (if (7 : Int) < 2 then 2 * 1 + 1 else 2 * 1)
      else .ok (setSlot [9, 2, 7] 1 9, rankInsert [] 9 1))) ∧
    (OurHeap.downLoop (ltb (β := Int)) 3 [9, 2] [] 9 1 =
      (if (2 : Int) < 9 then
        OurHeap.downLoop ltb 3 (setSlot [9, 2] 1 2) (rankInsert [] 2 1) 9 (2 * 1)
      else .ok (setSlot [9, 2] 1 9, rankInsert [] 9 1))) :=
  ⟨claim_C6_down_moves_smaller_child.1 4 [9, 2, 7] [] 9 1 2 7 (by decide) (by decide)
      (by decide) (by decide),
    claim_C6_down_moves_smaller_child.2 3 [9, 2] [] 9 1 2 (by decide) (by decide)
      (by decide) (by decide)⟩

/-! ### Equal-compare update moves nothing (claim C8) -/

/-- Claim C8: when the comparison is a strict weak order (negatively
transitive), the heap satisfies both invariants, `old` occupies slot `i`,
`new` is absent, and `old` and `new` compare equal (neither is smaller), then
`update old new` performs no repositioning: it returns exactly the original
state with `new` written at slot `i` and the rank binding of `old` replaced by
one of `new` at the same index, and the heap-order invariant still holds. -/
theorem claim_C8_equal_compare_update_frame {α : Type} [DecidableEq α] (lt : α → α → Bool)
    (hneg : ∀ a b c : α, lt a b = false → lt b c = false → lt a c = false)
    (s : OurHeap α) (old new : α) (i : Nat)
    (ho : heapOrd lt s.heap) (hm : rankMatch s.rank s.heap)
    (hold : rankLookup s.rank old = some i)
    (_hnew : rankMem s.rank new = false)
    (heq1 : lt old new = false) (heq2 : lt new old = false) :
    OurHeap.update lt s old new =
      .ok (OurHeap.mk (setSlot s.heap i new) (rankInsert (rankErase s.rank old) new i)) ∧
    heapOrd lt (setSlot s.heap i new) := by
  have hslot : getSlot s.heap i = some old := (hm old i).mp hold
  obtain ⟨hi1, hi2⟩ := getSlot_bounds hslot
  have horder : heapOrd lt (setSlot s.heap i new) := by
    intro j y p hy hp
    by_cases hji : j = i
    · rw [hji] at hy hp
      rw [getSlot_setSlot_self hi1 hi2] at hy
      injection hy with hy
      subst hy
      rw [getSlot_setSlot_ne (show i ≠ i / 2 by omega)] at hp
      exact hneg new old p heq2 (ho i old p hslot hp)
    · rw [getSlot_setSlot_ne (fun hc => hji hc.symm)] at hy
      by_cases hpi : j / 2 = i
      · rw [hpi, getSlot_setSlot_self hi1 hi2] at hp
        injection hp with hp
        subst hp
        have hpar := ho j y old hy (by rw [hpi]; exact hslot)
        exact hneg y old new hpar heq1
      · rw [getSlot_setSlot_ne (fun hc => hpi hc.symm)] at hp
        exact ho j y p hy hp
  refine ⟨?_, horder⟩
  have hloop : OurHeap.upLoop lt (setSlot s.heap i new)
      (rankInsert (rankErase s.rank old) new i) new i =
      .ok (setSlot s.heap i new, rankInsert (rankErase s.rank old) new i) := by
    rw [OurHeap.upLoop]
    by_cases hgt : 1 < i
    · obtain ⟨p, hp⟩ := getSlot_isSome_of_bounds (l := s.heap) (i := i / 2)
        (by omega) (by omega)
      have hp2 : getSlot (setSlot s.heap i new) (i / 2) = some p := by
        rw [getSlot_setSlot_ne (show i ≠ i / 2 by omega)]
        exact hp
      have hnp : lt new p = false := hneg new old p heq2 (ho i old p hslot hp)
      simp only [dif_pos hgt, hp2]
      rw [if_neg (show ¬ lt new p = true by simp [hnp])]
      rw [setSlot_setSlot, rankInsert_rankInsert_self]
    · simp only [dif_neg hgt]
      rw [setSlot_setSlot, rankInsert_rankInsert_self]
  simp only [OurHeap.update, hold]
  rw [if_pos hi2, if_neg (show ¬ lt old new = true by simp [heq1])]
  simp only [OurHeap.up, getSlot_setSlot_self hi1 hi2, hloop]

/-- Witness for C8 with pairs compared on their first component only:
`old = (5, 0)` at slot 2 is replaced by the equal-comparing, absent
`new = (5, 1)` and nothing moves. -/
theorem claim_C8_equal_compare_update_frame_witness :
    OurHeap.update fstLt
      (OurHeap.mk [(1, 0), (5, 0), (7, 0)] [((1, 0), 1), ((5, 0), 2), ((7, 0), 3)])
      (5, 0) (5, 1) =
      .ok (OurHeap.mk (setSlot [(1, 0), (5, 0), (7, 0)] 2 (5, 1))
        (rankInsert (rankErase [((1, 0), 1), ((5, 0), 2), ((7, 0), 3)] (5, 0)) (5, 1) 2)) ∧
    heapOrd fstLt (setSlot [(1, 0), (5, 0), (7, 0)] 2 (5, 1)) :=
  claim_C8_equal_compare_update_frame fstLt
    (by intro a b c hab hbc; simp [fstLt] at hab hbc ⊢; omega)
    (OurHeap.mk [(1, 0), (5, 0), (7, 0)] [((1, 0), 1), ((5, 0), 2), ((7, 0), 3)])
    (5, 0) (5, 1) 2
    (heapOrd_of_heapOrdB (by decide))
    (rankMatch_of_rankMatchB (by decide))
    (by decide) (by decide) (by decide) (by decide)

/-! ### Order-specific helpers -/

theorem ltb_true {β : Type} [LinearOrder β] {a b : β} : ltb a b = true ↔ a < b := by
  simp [ltb]

theorem ltb_false {β : Type} [LinearOrder β] {a b : β} : ltb a b = false ↔ b ≤ a := by
  rw [← Bool.not_eq_true, ltb_true, not_lt]

theorem mem_iff_getSlot {l : List α} {y : α} : y ∈ l ↔ ∃ i, getSlot l i = some y := by
  constructor
  · intro hm
    obtain ⟨k, hk, hy⟩ := List.getElem_of_mem hm
    refine ⟨k + 1, ?_⟩
    unfold getSlot
    rw [if_pos (by omega)]
    simp only [Nat.add_sub_cancel]
    rw [List.getElem?_eq_getElem hk, hy]
  · rintro ⟨i, hi⟩
    unfold getSlot at hi
    split at hi
    · obtain ⟨hlt, hy⟩ := List.getElem?_eq_some.mp hi
      exact hy ▸ List.getElem_mem hlt
    · cases hi

theorem heapOrd_root_min {β : Type} [DecidableEq β] [LinearOrder β] {h : List β}
    (ho : heapOrd ltb h) {rt : β} (hrt : getSlot h 1 = some rt) :
    ∀ i y, getSlot h i = some y → rt ≤ y := by
  intro i
  induction i using Nat.strong_induction_on with
  | _ i ih =>
    intro y hy
    obtain ⟨h1, h2⟩ := getSlot_bounds hy
    by_cases hi1 : i = 1
    · rw [hi1, hrt] at hy
      injection hy with hy
      rw [hy]
    · obtain ⟨p, hp⟩ := getSlot_isSome_of_bounds (l := h) (i := i / 2) (by omega) (by omega)
      have hle : p ≤ y := ltb_false.mp (ho i y p hy hp)
      exact le_trans (ih (i / 2) (by omega) p hp) hle

theorem rankMatch_place {h : List α} {r : RankMap α} {x : α} {i : Nat}
    (h1 : 1 ≤ i) (h2 : i ≤ h.length)
    (hU3 : ∀ y k, y ≠ x → (rankLookup r y = some k ↔ getSlot (setSlot h i x) k = some y))
    (hU4 : ∀ k, getSlot (setSlot h i x) k = some x → k = i) :
    rankMatch (rankInsert r x i) (setSlot h i x) := by
  intro y k
  by_cases hyx : y = x
  · subst hyx
    rw [rankLookup_rankInsert_self]
    constructor
    · intro hk
      injection hk with hk
      rw [← hk]
      exact getSlot_setSlot_self h1 h2 y
    · intro hk
      rw [hU4 k hk]
  · rw [rankLookup_rankInsert_ne r i (fun hc => hyx hc.symm)]
    exact hU3 y k hyx

theorem heapOrd_place_up {β : Type} [DecidableEq β] [LinearOrder β]
    {h : List β} {x : β} {i : Nat} (h1 : 1 ≤ i) (h2 : i ≤ h.length)
    (hU1 : ∀ j y q, j ≠ i → getSlot (setSlot h i x) j = some y →
      getSlot (setSlot h i x) (j / 2) = some q → q ≤ y)
    (hedge : ∀ q, getSlot (setSlot h i x) (i / 2) = some q → q ≤ x) :
    heapOrd ltb (setSlot h i x) := by
  intro j y q hy hq
  rw [ltb_false]
  by_cases hji : j = i
  · subst hji
    rw [getSlot_setSlot_self h1 h2] at hy
    injection hy with hy
    rw [← hy]
    exact hedge q hq
  · exact hU1 j y q hji hy hq

theorem heapOrd_place_down {β : Type} [DecidableEq β] [LinearOrder β]
    {h : List β} {x : β} {i : Nat} (h1 : 1 ≤ i) (h2 : i ≤ h.length)
    (hD1 : ∀ j y q, j / 2 ≠ i → getSlot (setSlot h i x) j = some y →
      getSlot (setSlot h i x) (j / 2) = some q → q ≤ y)
    (hchild : ∀ c y, c / 2 = i → getSlot (setSlot h i x) c = some y → x ≤ y) :
    heapOrd ltb (setSlot h i x) := by
  intro j y q hy hq
  rw [ltb_false]
  by_cases hji : j / 2 = i
  · rw [hji, getSlot_setSlot_self h1 h2] at hq
    injection hq with hq
    rw [← hq]
    exact hchild j y hji hy
  · exact hD1 j y q hji hy hq

/-! ### Correctness of sift-up -/

theorem upLoop_correct {β : Type} [DecidableEq β] [LinearOrder β] :
    ∀ (i : Nat) (h : List β) (r : RankMap β) (x : β), 1 ≤ i → i ≤ h.length →
    (∀ j y q, j ≠ i → getSlot (setSlot h i x) j = some y →
      getSlot (setSlot h i x) (j / 2) = some q → q ≤ y) →
    (∀ c y gp, c / 2 = i → getSlot (setSlot h i x) c = some y →
      getSlot (setSlot h i x) (i / 2) = some gp → gp ≤ y) →
    (∀ y k, y ≠ x → (rankLookup r y = some k ↔ getSlot (setSlot h i x) k = some y)) →
    (∀ k, getSlot (setSlot h i x) k = some x → k = i) →
    ∃ h2 r2, OurHeap.upLoop ltb h r x i = .ok (h2, r2) ∧
      heapOrd ltb h2 ∧ rankMatch r2 h2 ∧ h2.length = h.length ∧
      ((h2 : List β) : Multiset β) = ((setSlot h i x : List β) : Multiset β) := by
  intro i
  induction i using Nat.strong_induction_on with
  | _ i ih =>
    intro h r x h1 h2 hU1 hU2 hU3 hU4
    have hHi : getSlot (setSlot h i x) i = some x := getSlot_setSlot_self h1 h2 x
    rw [OurHeap.upLoop]
    by_cases hgt : 1 < i
    · obtain ⟨p, hp⟩ := getSlot_isSome_of_bounds (l := h) (i := i / 2) (by omega) (by omega)
      have hpH : getSlot (setSlot h i x) (i / 2) = some p := by
        rw [getSlot_setSlot_ne (show i ≠ i / 2 by omega)]
        exact hp
      simp only [dif_pos hgt, hp]
      by_cases hlt : ltb x p = true
      · -- the held element is smaller than its parent: swap and recurse
        have hxp : x < p := ltb_true.mp hlt
        have hpx : p ≠ x := ne_of_gt hxp
        rw [if_pos hlt]
        -- pointwise description of the new virtual heap
        have hlen' : (setSlot h i p).length = h.length := by simp
        have hH'i : getSlot (setSlot (setSlot h i p) (i / 2) x) i = some p := by
          rw [getSlot_setSlot_ne (show i / 2 ≠ i by omega)]
          exact getSlot_setSlot_self h1 h2 p
        have hH'half : getSlot (setSlot (setSlot h i p) (i / 2) x) (i / 2) = some x :=
          getSlot_setSlot_self (by omega) (by omega) x
        have hH'other : ∀ k, k ≠ i → k ≠ i / 2 →
            getSlot (setSlot (setSlot h i p) (i / 2) x) k = getSlot (setSlot h i x) k := by
          intro k hk1 hk2
          rw [getSlot_setSlot_ne (fun hc => hk2 hc.symm),
            getSlot_setSlot_ne (fun hc => hk1 hc.symm),
            getSlot_setSlot_ne (fun hc => hk1 hc.symm)]
        have hU1' : ∀ j y q, j ≠ i / 2 →
            getSlot (setSlot (setSlot h i p) (i / 2) x) j = some y →
            getSlot (setSlot (setSlot h i p) (i / 2) x) (j / 2) = some q → q ≤ y := by
          intro j y q hj hy hq
          by_cases hji : j = i
          · subst hji
            rw [hH'i] at hy
            injection hy with hy
            rw [hH'half] at hq
            injection hq with hq
            rw [← hy, ← hq]
            exact le_of_lt hxp
          · by_cases hji2 : j / 2 = i
            · rw [hji2, hH'i] at hq
              injection hq with hq
              have hyH : getSlot (setSlot h i x) j = some y := by
                rw [← hH'other j hji hj]
                exact hy
              rw [← hq]
              exact hU2 j y p hji2 hyH hpH
            · by_cases hji3 : j / 2 = i / 2
              · rw [hji3, hH'half] at hq
                injection hq with hq
                have hyH : getSlot (setSlot h i x) j = some y := by
                  rw [← hH'other j hji hj]
                  exact hy
                have hple : p ≤ y := by
                  refine hU1 j y p hji hyH ?_
                  rw [hji3]
                  exact hpH
                rw [← hq]
                exact le_trans (le_of_lt hxp) hple
              · have hyH : getSlot (setSlot h i x) j = some y := by
                  rw [← hH'other j hji hj]
                  exact hy
                have hqH : getSlot (setSlot h i x) (j / 2) = some q := by
                  rw [← hH'other (j / 2) hji2 hji3]
                  exact hq
                exact hU1 j y q hji hyH hqH
        have hU2' : ∀ c y gp, c / 2 = i / 2 →
            getSlot (setSlot (setSlot h i p) (i / 2) x) c = some y →
            getSlot (setSlot (setSlot h i p) (i / 2) x) (i / 2 / 2) = some gp → gp ≤ y := by
          intro c y gp hc hy hgp
          have hgpH : getSlot (setSlot h i x) (i / 2 / 2) = some gp := by
            rw [← hH'other (i / 2 / 2) (by omega) (by omega)]
            exact hgp
          have hgpp : gp ≤ p := hU1 (i / 2) p gp (by omega) hpH hgpH
          by_cases hci : c = i
          · subst hci
            rw [hH'i] at hy
            injection hy with hy
            rw [← hy]
            exact hgpp
          · have hcih : c ≠ i / 2 := by omega
            have hyH : getSlot (setSlot h i x) c = some y := by
              rw [← hH'other c hci hcih]
              exact hy
            have hpy : p ≤ y := by
              refine hU1 c y p hci hyH ?_
              rw [hc]
              exact hpH
            exact le_trans hgpp hpy
        have hU3' : ∀ y k, y ≠ x → (rankLookup (rankInsert r p i) y = some k ↔
            getSlot (setSlot (setSlot h i p) (i / 2) x) k = some y) := by
          intro y k hyx
          by_cases hyp : y = p
          · subst hyp
            rw [rankLookup_rankInsert_self]
            constructor
            · intro hk
              injection hk with hk
              rw [← hk]
              exact hH'i
            · intro hk
              by_cases hki : k = i
              · rw [hki]
              · by_cases hki2 : k = i / 2
                · rw [hki2, hH'half] at hk
                  injection hk with hk
                  exact absurd hk.symm hyx
                · rw [hH'other k hki hki2] at hk
                  have l1 := (hU3 y k hyx).mpr hk
                  have l2 := (hU3 y (i / 2) hyx).mpr hpH
                  rw [l1] at l2
                  injection l2 with l2
                  omega
          · rw [rankLookup_rankInsert_ne r i (fun hc => hyp hc.symm)]
            rw [hU3 y k hyx]
            by_cases hki : k = i
            · rw [hki, hH'i, hHi]
              constructor
              · intro hc
                injection hc with hc
                exact absurd hc.symm hyx
              · intro hc
                injection hc with hc
                exact absurd hc.symm hyp
            · by_cases hki2 : k = i / 2
              · rw [hki2, hH'half, hpH]
                constructor
                · intro hc
                  injection hc with hc
                  exact absurd hc.symm hyp
                · intro hc
                  injection hc with hc
                  exact absurd hc.symm hyx
              · rw [hH'other k hki hki2]
        have hU4' : ∀ k, getSlot (setSlot (setSlot h i p) (i / 2) x) k = some x →
            k = i / 2 := by
          intro k hk
          by_cases hki : k = i
          · rw [hki, hH'i] at hk
            injection hk with hk
            exact absurd hk hpx
          · by_cases hki2 : k = i / 2
            · exact hki2
            · rw [hH'other k hki hki2] at hk
              exact absurd (hU4 k hk) hki
        obtain ⟨h2x, r2, hok, hord, hmatch, hlen, hms⟩ :=
          ih (i / 2) (by omega) (setSlot h i p) (rankInsert r p i) x (by omega)
            (by rw [hlen']; omega) hU1' hU2' hU3' hU4'
        refine ⟨h2x, r2, hok, hord, hmatch, by rw [hlen, hlen'], ?_⟩
        have e0 : setSlot (setSlot (setSlot h i x) i p) (i / 2) x =
            setSlot (setSlot h i p) (i / 2) x := by
          rw [setSlot_setSlot]
        have e1 : ((setSlot (setSlot h i x) i p : List β) : Multiset β) + {x} =
            ((setSlot h i x : List β) : Multiset β) + {p} := mset_setSlot hHi p
        have e2 : ((setSlot (setSlot h i p) (i / 2) x : List β) : Multiset β) + {p} =
            ((setSlot (setSlot h i x) i p : List β) : Multiset β) + {x} := by
          rw [← e0]
          refine mset_setSlot ?_ x
          rw [getSlot_setSlot_ne (show i ≠ i / 2 by omega)]
          exact hpH
        have e3 := e2.trans e1
        have e4 : ((setSlot (setSlot h i p) (i / 2) x : List β) : Multiset β) =
            ((setSlot h i x : List β) : Multiset β) := add_right_cancel e3
        exact hms.trans e4
      · -- parent not larger: place x here and stop
        rw [if_neg hlt]
        refine ⟨setSlot h i x, rankInsert r x i, rfl, ?_, ?_, by simp, rfl⟩
        · refine heapOrd_place_up h1 h2 hU1 ?_
          intro q hq
          rw [hpH] at hq
          injection hq with hq
          rw [← hq]
          exact ltb_false.mp (Bool.not_eq_true _ ▸ hlt)
        · exact rankMatch_place h1 h2 hU3 hU4
    · -- at the root: place x and stop
      simp only [dif_neg hgt]
      refine ⟨setSlot h i x, rankInsert r x i, rfl, ?_, ?_, by simp, rfl⟩
      · refine heapOrd_place_up h1 h2 hU1 ?_
        intro q hq
        have hi1 : i = 1 := by omega
        rw [hi1] at hq
        simp only [Nat.reduceDiv] at hq
        rw [getSlot] at hq
        simp at hq
      · exact rankMatch_place h1 h2 hU3 hU4

/-! ### Correctness of sift-down -/

theorem downLoop_step {β : Type} [DecidableEq β] [LinearOrder β]
    {h : List β} {r : RankMap β} {x : β} {i c : Nat} {cv : β}
    (h1 : 1 ≤ i) (h2 : i ≤ h.length) (hc : c = 2 * i ∨ c = 2 * i + 1) (hcb : c ≤ h.length)
    (hcv : getSlot (setSlot h i x) c = some cv) (hcvx : cv < x)
    (hsib : ∀ s sv, s / 2 = i → s ≠ c → getSlot (setSlot h i x) s = some sv → cv ≤ sv)
    (hD1 : ∀ j y q, j / 2 ≠ i → getSlot (setSlot h i x) j = some y →
      getSlot (setSlot h i x) (j / 2) = some q → q ≤ y)
    (hD2 : ∀ cc y gp, cc / 2 = i → getSlot (setSlot h i x) cc = some y →
      getSlot (setSlot h i x) (i / 2) = some gp → gp ≤ y)
    (hD3 : ∀ y k, y ≠ x → (rankLookup r y = some k ↔ getSlot (setSlot h i x) k = some y))
    (hD4 : ∀ k, getSlot (setSlot h i x) k = some x → k = i) :
    (∀ j y q, j / 2 ≠ c → getSlot (setSlot (setSlot h i cv) c x) j = some y →
      getSlot (setSlot (setSlot h i cv) c x) (j / 2) = some q → q ≤ y) ∧
    (∀ cc y gp, cc / 2 = c → getSlot (setSlot (setSlot h i cv) c x) cc = some y →
      getSlot (setSlot (setSlot h i cv) c x) (c / 2) = some gp → gp ≤ y) ∧
    (∀ y k, y ≠ x → (rankLookup (rankInsert r cv i) y = some k ↔
      getSlot (setSlot (setSlot h i cv) c x) k = some y)) ∧
    (∀ k, getSlot (setSlot (setSlot h i cv) c x) k = some x → k = c) ∧
    ((setSlot (setSlot h i cv) c x : List β) : Multiset β) =
      ((setSlot h i x : List β) : Multiset β) := by
  have hci : c ≠ i := by omega
  have hc1 : 1 ≤ c := by omega
  have hchalf : c / 2 = i := by omega
  have hcvx' : cv ≠ x := ne_of_lt hcvx
  have hHi : getSlot (setSlot h i x) i = some x := getSlot_setSlot_self h1 h2 x
  have hH'c : getSlot (setSlot (setSlot h i cv) c x) c = some x :=
    getSlot_setSlot_self hc1 (by simpa using hcb) x
  have hH'i : getSlot (setSlot (setSlot h i cv) c x) i = some cv := by
    rw [getSlot_setSlot_ne hci]
    exact getSlot_setSlot_self h1 h2 cv
  have hH'other : ∀ k, k ≠ i → k ≠ c →
      getSlot (setSlot (setSlot h i cv) c x) k = getSlot (setSlot h i x) k := by
    intro k hk1 hk2
    rw [getSlot_setSlot_ne (fun hch => hk2 hch.symm),
      getSlot_setSlot_ne (fun hch => hk1 hch.symm),
      getSlot_setSlot_ne (fun hch => hk1 hch.symm)]
  refine ⟨?_, ?_, ?_, ?_, ?_⟩
  · -- hD1 transferred to the new hole at c
    intro j y q hj hy hq
    by_cases hji : j = i
    · rw [hji] at hy hq
      rw [hH'i] at hy
      injection hy with hy
      have hq' : getSlot (setSlot h i x) (i / 2) = some q := by
        rw [← hH'other (i / 2) (by omega) (by omega)]
        exact hq
      rw [← hy]
      exact hD2 c cv q hchalf hcv hq'
    · by_cases hjc : j = c
      · rw [hjc] at hy hq
        rw [hH'c] at hy
        injection hy with hy
        rw [hchalf, hH'i] at hq
        injection hq with hq
        rw [← hy, ← hq]
        exact le_of_lt hcvx
      · by_cases hji2 : j / 2 = i
        · rw [hji2, hH'i] at hq
          injection hq with hq
          have hy' : getSlot (setSlot h i x) j = some y := by
            rw [← hH'other j hji hjc]
            exact hy
          rw [← hq]
          exact hsib j y hji2 hjc hy'
        · have hy' : getSlot (setSlot h i x) j = some y := by
            rw [← hH'other j hji hjc]
            exact hy
          have hq' : getSlot (setSlot h i x) (j / 2) = some q := by
            rw [← hH'other (j / 2) hji2 hj]
            exact hq
          exact hD1 j y q hji2 hy' hq'
  · -- hD2 transferred: grandchildren of the old hole
    intro cc y gp hcc hy hgp
    rw [hchalf, hH'i] at hgp
    injection hgp with hgp
    have hcci : cc ≠ i := by omega
    have hccc : cc ≠ c := by omega
    have hy' : getSlot (setSlot h i x) cc = some y := by
      rw [← hH'other cc hcci hccc]
      exact hy
    have hpar : getSlot (setSlot h i x) (cc / 2) = some cv := by
      rw [hcc]
      exact hcv
    rw [← hgp]
    exact hD1 cc y cv (by omega) hy' hpar
  · -- the rank map matches the new virtual heap off the held element
    intro y k hyx
    by_cases hyc : y = cv
    · subst hyc
      rw [rankLookup_rankInsert_self]
      constructor
      · intro hk
        injection hk with hk
        rw [← hk]
        exact hH'i
      · intro hk
        by_cases hki : k = i
        · rw [hki]
        · by_cases hkc : k = c
          · rw [hkc, hH'c] at hk
            injection hk with hk
            exact absurd hk.symm hyx
          · rw [hH'other k hki hkc] at hk
            have l1 := (hD3 y k hyx).mpr hk
            have l2 := (hD3 y c hyx).mpr hcv
            rw [l1] at l2
            injection l2 with l2
            omega
    · rw [rankLookup_rankInsert_ne r i (fun hch => hyc hch.symm)]
      rw [hD3 y k hyx]
      by_cases hki : k = i
      · rw [hki, hH'i, hHi]
        constructor
        · intro hch
          injection hch with hch
          exact absurd hch.symm hyx
        · intro hch
          injection hch with hch
          exact absurd hch.symm hyc
      · by_cases hkc : k = c
        · rw [hkc, hH'c, hcv]
          constructor
          · intro hch
            injection hch with hch
            exact absurd hch.symm hyc
          · intro hch
            injection hch with hch
            exact absurd hch.symm hyx
        · rw [hH'other k hki hkc]
  · -- the held element occurs only at the new hole
    intro k hk
    by_cases hki : k = i
    · rw [hki, hH'i] at hk
      injection hk with hk
      exact absurd hk hcvx'
    · by_cases hkc : k = c
      · exact hkc
      · rw [hH'other k hki hkc] at hk
        exact absurd (hD4 k hk) hki
  · -- the swap preserves the multiset of elements
    have e0 : setSlot (setSlot (setSlot h i x) i cv) c x =
        setSlot (setSlot h i cv) c x := by
      rw [setSlot_setSlot]
    have e1 : ((setSlot (setSlot h i x) i cv : List β) : Multiset β) + {x} =
        ((setSlot h i x : List β) : Multiset β) + {cv} := mset_setSlot hHi cv
    have e2 : ((setSlot (setSlot h i cv) c x : List β) : Multiset β) + {cv} =
        ((setSlot (setSlot h i x) i cv : List β) : Multiset β) + {x} := by
      rw [← e0]
      refine mset_setSlot ?_ x
      rw [getSlot_setSlot_ne (fun hch => hci hch.symm)]
      exact hcv
    exact add_right_cancel (e2.trans e1)

theorem downLoop_correct {β : Type} [DecidableEq β] [LinearOrder β] {n : Nat} :
    ∀ (d i : Nat) (h : List β) (r : RankMap β) (x : β), n - i = d → 1 ≤ i → i ≤ h.length →
    n = h.length + 1 →
    (∀ j y q, j / 2 ≠ i → getSlot (setSlot h i x) j = some y →
      getSlot (setSlot h i x) (j / 2) = some q → q ≤ y) →
    (∀ c y gp, c / 2 = i → getSlot (setSlot h i x) c = some y →
      getSlot (setSlot h i x) (i / 2) = some gp → gp ≤ y) →
    (∀ y k, y ≠ x → (rankLookup r y = some k ↔ getSlot (setSlot h i x) k = some y)) →
    (∀ k, getSlot (setSlot h i x) k = some x → k = i) →
    ∃ h2 r2, OurHeap.downLoop ltb n h r x i = .ok (h2, r2) ∧
      heapOrd ltb h2 ∧ rankMatch r2 h2 ∧ h2.length = h.length ∧
      ((h2 : List β) : Multiset β) = ((setSlot h i x : List β) : Multiset β) := by
  intro d
  induction d using Nat.strong_induction_on with
  | _ d ih =>
    intro i h r x hd h1 h2 hn hD1 hD2 hD3 hD4
    rw [OurHeap.downLoop]
    simp only [dif_neg (show ¬ i = 0 by omega)]
    by_cases hrn : 2 * i + 1 < n
    · obtain ⟨rv, hrv⟩ := getSlot_isSome_of_bounds (l := h) (i := 2 * i + 1)
        (by omega) (by omega)
      obtain ⟨lv, hlv⟩ := getSlot_isSome_of_bounds (l := h) (i := 2 * i)
        (by omega) (by omega)
      have hrvH : getSlot (setSlot h i x) (2 * i + 1) = some rv := by
        rw [getSlot_setSlot_ne (show i ≠ 2 * i + 1 by omega)]
        exact hrv
      have hlvH : getSlot (setSlot h i x) (2 * i) = some lv := by
        rw [getSlot_setSlot_ne (show i ≠ 2 * i by omega)]
        exact hlv
      simp only [dif_pos hrn, hrv, hlv]
      by_cases hA : (ltb rv x && ltb rv lv) = true
      · rw [if_pos hA]
        rw [Bool.and_eq_true] at hA
        have hrvx : rv < x := ltb_true.mp hA.1
        have hrvlv : rv < lv := ltb_true.mp hA.2
        have hsib : ∀ s sv, s / 2 = i → s ≠ 2 * i + 1 →
            getSlot (setSlot h i x) s = some sv → rv ≤ sv := by
          intro s sv hs hsne hsv
          have hs' : s = 2 * i := by omega
          rw [hs', hlvH] at hsv
          injection hsv with hsv
          rw [← hsv]
          exact le_of_lt hrvlv
        obtain ⟨hD1', hD2', hD3', hD4', hms0⟩ :=
          downLoop_step h1 h2 (Or.inr rfl) (by omega) hrvH hrvx hsib hD1 hD2 hD3 hD4
        obtain ⟨h2x, r2, hok, hord, hmatch, hlen, hms⟩ :=
          ih (n - (2 * i + 1)) (by omega) (2 * i + 1) (setSlot h i rv) (rankInsert r rv i) x
            rfl (by omega) (by simp; omega) (by simp [hn]) hD1' hD2' hD3' hD4'
        exact ⟨h2x, r2, hok, hord, hmatch, by simpa using hlen, hms.trans hms0⟩
      · rw [if_neg hA]
        by_cases hB : ltb lv x = true
        · rw [if_pos hB]
          have hlvx : lv < x := ltb_true.mp hB
          have hlvrv : lv ≤ rv := by
            by_contra hcon
            push_neg at hcon
            exact hA (by
              rw [Bool.and_eq_true, ltb_true, ltb_true]
              exact ⟨lt_trans hcon hlvx, hcon⟩)
          have hsib : ∀ s sv, s / 2 = i → s ≠ 2 * i →
              getSlot (setSlot h i x) s = some sv → lv ≤ sv := by
            intro s sv hs hsne hsv
            have hs' : s = 2 * i + 1 := by omega
            rw [hs', hrvH] at hsv
            injection hsv with hsv
            rw [← hsv]
            exact hlvrv
          obtain ⟨hD1', hD2', hD3', hD4', hms0⟩ :=
            downLoop_step h1 h2 (Or.inl rfl) (by omega) hlvH hlvx hsib hD1 hD2 hD3 hD4
          obtain ⟨h2x, r2, hok, hord, hmatch, hlen, hms⟩ :=
            ih (n - 2 * i) (by omega) (2 * i) (setSlot h i lv) (rankInsert r lv i) x
              rfl (by omega) (by simp; omega) (by simp [hn]) hD1' hD2' hD3' hD4'
          exact ⟨h2x, r2, hok, hord, hmatch, by simpa using hlen, hms.trans hms0⟩
        · rw [if_neg hB]
          refine ⟨setSlot h i x, rankInsert r x i, rfl, ?_,
            rankMatch_place h1 h2 hD3 hD4, by simp, rfl⟩
          refine heapOrd_place_down h1 h2 hD1 ?_
          intro cc y hcc hy
          have hcases : cc = 2 * i ∨ cc = 2 * i + 1 := by omega
          rcases hcases with hcl | hcr
          · rw [hcl, hlvH] at hy
            injection hy with hy
            rw [← hy]
            exact le_of_not_lt (fun hcon => hB (ltb_true.mpr hcon))
          · rw [hcr, hrvH] at hy
            injection hy with hy
            rw [← hy]
            by_contra hcon
            push_neg at hcon
            have hnrl : ¬ rv < lv := fun hq => hA (by
              rw [Bool.and_eq_true, ltb_true, ltb_true]
              exact ⟨hcon, hq⟩)
            exact hB (ltb_true.mpr (lt_of_le_of_lt (le_of_not_lt hnrl) hcon))
    · simp only [dif_neg hrn]
      by_cases hln : 2 * i < n
      · obtain ⟨lv, hlv⟩ := getSlot_isSome_of_bounds (l := h) (i := 2 * i)
          (by omega) (by omega)
        have hlvH : getSlot (setSlot h i x) (2 * i) = some lv := by
          rw [getSlot_setSlot_ne (show i ≠ 2 * i by omega)]
          exact hlv
        simp only [dif_pos hln, hlv]
        by_cases hB : ltb lv x = true
        · rw [if_pos hB]
          have hlvx : lv < x := ltb_true.mp hB
          have hsib : ∀ s sv, s / 2 = i → s ≠ 2 * i →
              getSlot (setSlot h i x) s = some sv → lv ≤ sv := by
            intro s sv hs hsne hsv
            obtain ⟨hb1, hb2⟩ := getSlot_bounds hsv
            rw [length_setSlot] at hb2
            omega
          obtain ⟨hD1', hD2', hD3', hD4', hms0⟩ :=
            downLoop_step h1 h2 (Or.inl rfl) (by omega) hlvH hlvx hsib hD1 hD2 hD3 hD4
          obtain ⟨h2x, r2, hok, hord, hmatch, hlen, hms⟩ :=
            ih (n - 2 * i) (by omega) (2 * i) (setSlot h i lv) (rankInsert r lv i) x
              rfl (by omega) (by simp; omega) (by simp [hn]) hD1' hD2' hD3' hD4'
          exact ⟨h2x, r2, hok, hord, hmatch, by simpa using hlen, hms.trans hms0⟩
        · rw [if_neg hB]
          refine ⟨setSlot h i x, rankInsert r x i, rfl, ?_,
            rankMatch_place h1 h2 hD3 hD4, by simp, rfl⟩
          refine heapOrd_place_down h1 h2 hD1 ?_
          intro cc y hcc hy
          have hcases : cc = 2 * i ∨ cc = 2 * i + 1 := by omega
          rcases hcases with hcl | hcr
          · rw [hcl, hlvH] at hy
            injection hy with hy
            rw [← hy]
            exact le_of_not_lt (fun hcon => hB (ltb_true.mpr hcon))
          · obtain ⟨hb1, hb2⟩ := getSlot_bounds hy
            rw [length_setSlot] at hb2
            omega
      · simp only [dif_neg hln]
        refine ⟨setSlot h i x, rankInsert r x i, rfl, ?_,
          rankMatch_place h1 h2 hD3 hD4, by simp, rfl⟩
        refine heapOrd_place_down h1 h2 hD1 ?_
        intro cc y hcc hy
        obtain ⟨hb1, hb2⟩ := getSlot_bounds hy
        rw [length_setSlot] at hb2
        omega

/-! ### The public operations preserve the invariants -/

theorem getSlot_none_of_gt {l : List α} {i : Nat} (h : l.length < i) : getSlot l i = none := by
  unfold getSlot
  split
  · exact List.getElem?_eq_none (by omega)
  · rfl

theorem push_WF {β : Type} [DecidableEq β] [LinearOrder β] (s : OurHeap β) (x : β)
    (ho : heapOrd ltb s.heap) (hm : rankMatch s.rank s.heap)
    (hx : rankMem s.rank x = false) :
    ∃ s2, OurHeap.push ltb s x = .ok s2 ∧ heapOrd ltb s2.heap ∧ rankMatch s2.rank s2.heap ∧
      s2.heap.length = s.heap.length + 1 ∧
      ((s2.heap : List β) : Multiset β) = x ::ₘ ((s.heap : List β) : Multiset β) := by
  have hgot : getSlot (s.heap ++ [x]) (s.heap.length + 1) = some x := getSlot_append_last s.heap x
  have hHeq : ∀ k, getSlot (setSlot (s.heap ++ [x]) (s.heap.length + 1) x) k =
      getSlot (s.heap ++ [x]) k := by
    intro k
    by_cases hk : k = s.heap.length + 1
    · rw [hk, hgot]
      exact getSlot_setSlot_self (by omega) (by simp) x
    · rw [getSlot_setSlot_ne (fun hc => hk hc.symm)]
  obtain ⟨h2, r2, hok, hord, hmatch, hlen, hms⟩ :=
    upLoop_correct (s.heap.length + 1) (s.heap ++ [x]) (rankInsert s.rank x (s.heap.length + 1))
      x (by omega) (by simp)
      (by
        intro j y q hj hy hq
        rw [hHeq] at hy hq
        obtain ⟨hj1, hj2⟩ := getSlot_bounds hy
        rw [List.length_append] at hj2
        simp only [List.length_cons, List.length_nil] at hj2
        have hjlen : j ≤ s.heap.length := by omega
        obtain ⟨hq1, hq2⟩ := getSlot_bounds hq
        rw [getSlot_append_left hjlen] at hy
        rw [getSlot_append_left (by omega)] at hq
        exact ltb_false.mp (ho j y q hy hq))
      (by
        intro c y gp hc hy hgp
        rw [hHeq] at hy
        rw [getSlot_append_none (by omega)] at hy
        cases hy)
      (by
        intro y k hyx
        rw [rankLookup_rankInsert_ne s.rank (s.heap.length + 1) (fun hc => hyx hc.symm)]
        rw [hm y k, hHeq]
        by_cases hk : k ≤ s.heap.length
        · rw [getSlot_append_left hk]
        · by_cases hk2 : k = s.heap.length + 1
          · rw [hk2, hgot, getSlot_none_of_gt (by omega)]
            constructor
            · intro hc
              cases hc
            · intro hc
              injection hc with hc
              exact absurd hc.symm hyx
          · rw [getSlot_append_none (by omega), getSlot_none_of_gt (by omega)]
      )
      (by
        intro k hk
        rw [hHeq] at hk
        obtain ⟨hk1, hk2⟩ := getSlot_bounds hk
        rw [List.length_append] at hk2
        simp only [List.length_cons, List.length_nil] at hk2
        by_cases hkl : k ≤ s.heap.length
        · rw [getSlot_append_left hkl] at hk
          have := (hm x k).mpr hk
          rw [rankMem, this] at hx
          cases hx
        · omega)
  refine ⟨OurHeap.mk h2 r2, ?_, hord, hmatch, ?_, ?_⟩
  · rw [OurHeap.push, if_neg (by simp [hx])]
    simp only [OurHeap.up, hgot, hok]
  · rw [hlen]
    simp
  · have e1 : ((setSlot (s.heap ++ [x]) (s.heap.length + 1) x : List β) : Multiset β) + {x} =
        ((s.heap ++ [x] : List β) : Multiset β) + {x} := mset_setSlot hgot x
    have e2 := add_right_cancel e1
    rw [hms, e2, ← Multiset.coe_add]
    rw [add_comm]
    simp [Multiset.singleton_add]

theorem pop_WF {β : Type} [DecidableEq β] [LinearOrder β] (s : OurHeap β)
    (ho : heapOrd ltb s.heap) (hm : rankMatch s.rank s.heap) (hne : 1 ≤ s.heap.length) :
    ∃ s2 root, OurHeap.pop ltb s = .ok (s2, root) ∧ getSlot s.heap 1 = some root ∧
      heapOrd ltb s2.heap ∧ rankMatch s2.rank s2.heap ∧
      s2.heap.length = s.heap.length - 1 ∧
      root ::ₘ ((s2.heap : List β) : Multiset β) = ((s.heap : List β) : Multiset β) := by
  have hnil : s.heap ≠ [] := by
    intro hc
    rw [hc] at hne
    simp at hne
  obtain ⟨root, hroot⟩ := getSlot_isSome_of_bounds (l := s.heap) (i := 1) (by omega) hne
  set x := s.heap.getLast hnil with hxdef
  have hlast : s.heap.getLast? = some x := List.getLast?_eq_getLast s.heap hnil
  have hgetx : getSlot s.heap s.heap.length = some x := by
    unfold getSlot
    rw [if_pos (by omega), ← List.getLast?_eq_getElem?]
    exact hlast
  by_cases hL : s.heap.length = 1
  · obtain ⟨a, ha⟩ := List.length_eq_one.mp hL
    have hra : root = a := by
      rw [ha] at hroot
      have hga : getSlot [a] 1 = some a := by simp [getSlot]
      rw [hga] at hroot
      injection hroot with hr
      exact hr.symm
    refine ⟨OurHeap.mk s.heap.dropLast (rankErase s.rank root), root, ?_, hroot, ?_, ?_, ?_, ?_⟩
    · rw [OurHeap.pop]
      simp only [hroot, hlast]
      rw [if_neg (by rw [List.length_dropLast]; omega)]
    · intro j y q hy hq
      rw [ha] at hy
      simp [getSlot] at hy
    · intro y k
      constructor
      · intro hk
        exfalso
        by_cases hyr : y = root
        · rw [hyr, rankLookup_rankErase_self] at hk
          cases hk
        · rw [rankLookup_rankErase_ne s.rank (fun hc => hyr hc.symm)] at hk
          have hg := (hm y k).mp hk
          rw [ha] at hg
          obtain ⟨hk1, hk2⟩ := getSlot_bounds hg
          simp only [List.length_cons, List.length_nil] at hk2
          have hk3 : k = 1 := by omega
          rw [hk3] at hg
          have hga : getSlot [a] 1 = some a := by simp [getSlot]
          rw [hga] at hg
          injection hg with hg
          exact hyr (hg.symm.trans hra.symm)
      · intro hk
        rw [ha] at hk
        simp [getSlot] at hk
    · rw [List.length_dropLast]
    · rw [ha, hra]
      simp
  · have hL2 : 2 ≤ s.heap.length := by omega
    have hrx : root ≠ x := by
      intro hc
      have h1u := (hm root 1).mpr hroot
      have h2u := (hm x s.heap.length).mpr hgetx
      rw [hc] at h1u
      rw [h1u] at h2u
      injection h2u with h2u
      omega
    have hHd1 : getSlot (setSlot s.heap.dropLast 1 x) 1 = some x :=
      getSlot_setSlot_self (by omega) (by rw [List.length_dropLast]; omega) x
    have hHdmid : ∀ k, 2 ≤ k → k ≤ s.heap.length - 1 →
        getSlot (setSlot s.heap.dropLast 1 x) k = getSlot s.heap k := by
      intro k hk1 hk2
      rw [getSlot_setSlot_ne (show 1 ≠ k by omega)]
      exact getSlot_dropLast (by omega)
    have hHdnone : ∀ k, s.heap.length ≤ k → getSlot (setSlot s.heap.dropLast 1 x) k = none := by
      intro k hk
      refine getSlot_none_of_gt ?_
      rw [length_setSlot, List.length_dropLast]
      omega
    have hsetset : setSlot (setSlot s.heap.dropLast 1 x) 1 x = setSlot s.heap.dropLast 1 x :=
      setSlot_setSlot s.heap.dropLast 1 x x
    obtain ⟨h2, r2, hok, hord, hmatch, hlen, hms⟩ :=
      downLoop_correct (n := (setSlot s.heap.dropLast 1 x).length + 1)
        ((setSlot s.heap.dropLast 1 x).length + 1 - 1) 1 (setSlot s.heap.dropLast 1 x)
        (rankInsert (rankErase s.rank root) x 1) x rfl (by omega)
        (by rw [length_setSlot, List.length_dropLast]; omega) rfl
        (by
          intro j y q hj hy hq
          rw [hsetset] at hy hq
          obtain ⟨hj1, hj2⟩ := getSlot_bounds hy
          rw [length_setSlot, List.length_dropLast] at hj2
          obtain ⟨hq1, hq2⟩ := getSlot_bounds hq
          rw [hHdmid j (by omega) (by omega)] at hy
          rw [hHdmid (j / 2) (by omega) (by omega)] at hq
          exact ltb_false.mp (ho j y q hy hq))
        (by
          intro c y gp hc hy hgp
          rw [hsetset] at hgp
          simp [getSlot] at hgp)
        (by
          intro y k hyx
          rw [rankLookup_rankInsert_ne _ 1 (fun hc => hyx hc.symm), hsetset]
          by_cases hyr : y = root
          · rw [hyr, rankLookup_rankErase_self]
            constructor
            · intro hc
              cases hc
            · intro hk
              exfalso
              obtain ⟨hk1, hk2⟩ := getSlot_bounds hk
              rw [length_setSlot, List.length_dropLast] at hk2
              by_cases hk1' : k = 1
              · rw [hk1', hHd1] at hk
                injection hk with hk
                exact hrx hk.symm
              · rw [hHdmid k (by omega) (by omega)] at hk
                have hlk := (hm root k).mpr hk
                have hr1 := (hm root 1).mpr hroot
                rw [hlk] at hr1
                injection hr1 with hr1
                exact hk1' hr1
          · rw [rankLookup_rankErase_ne s.rank (fun hc => hyr hc.symm), hm y k]
            by_cases hk1 : k = 1
            · rw [hk1, hHd1, hroot]
              constructor
              · intro hc
                injection hc with hc
                exact absurd hc.symm hyr
              · intro hc
                injection hc with hc
                exact absurd hc.symm hyx
            · by_cases hk0 : 1 ≤ k
              · by_cases hkmid : k ≤ s.heap.length - 1
                · rw [hHdmid k (by omega) (by omega)]
                · rw [hHdnone k (by omega)]
                  by_cases hkL : k = s.heap.length
                  · rw [hkL, hgetx]
                    constructor
                    · intro hc
                      injection hc with hc
                      exact absurd hc.symm hyx
                    · intro hc
                      cases hc
                  · rw [getSlot_none_of_gt (show s.heap.length < k by omega)]
              · have hk00 : k = 0 := by omega
                rw [hk00]
                simp [getSlot])
        (by
          intro k hk
          rw [hsetset] at hk
          by_cases hk1 : k = 1
          · exact hk1
          · exfalso
            obtain ⟨hb1, hb2⟩ := getSlot_bounds hk
            rw [length_setSlot, List.length_dropLast] at hb2
            rw [hHdmid k (by omega) (by omega)] at hk
            have := rankMatch_slot_unique hm hk hgetx
            omega)
    have hdown : OurHeap.down ltb
        (OurHeap.mk (setSlot s.heap.dropLast 1 x) (rankInsert (rankErase s.rank root) x 1)) 1 =
        .ok (OurHeap.mk h2 r2) := by
      simp only [OurHeap.down, hHd1, hok]
    refine ⟨OurHeap.mk h2 r2, root, ?_, hroot, hord, hmatch, ?_, ?_⟩
    · rw [OurHeap.pop]
      simp only [hroot, hlast]
      rw [if_pos (by rw [List.length_dropLast]; omega)]
      simp only [hdown]
    · rw [hlen, length_setSlot, List.length_dropLast]
    · rw [hsetset] at hms
      have hm1 : ((setSlot s.heap.dropLast 1 x : List β) : Multiset β) + {root} =
          ((s.heap.dropLast : List β) : Multiset β) + {x} := by
        refine mset_setSlot ?_ x
        rw [getSlot_dropLast (by omega)]
        exact hroot
      have happ : s.heap.dropLast ++ [x] = s.heap := List.dropLast_append_getLast hnil
      calc root ::ₘ ((h2 : List β) : Multiset β)
          = ((setSlot s.heap.dropLast 1 x : List β) : Multiset β) + {root} := by
            rw [hms, ← Multiset.singleton_add, add_comm]
        _ = ((s.heap.dropLast : List β) : Multiset β) + {x} := hm1
        _ = ((s.heap : List β) : Multiset β) := by
            rw [← Multiset.coe_singleton, Multiset.coe_add, happ]

theorem update_WF {β : Type} [DecidableEq β] [LinearOrder β] (s : OurHeap β) (old new : β)
    {i : Nat} (ho : heapOrd ltb s.heap) (hm : rankMatch s.rank s.heap)
    (hold : rankLookup s.rank old = some i) (hnew : rankMem s.rank new = false) :
    ∃ s2, OurHeap.update ltb s old new = .ok s2 ∧ heapOrd ltb s2.heap ∧
      rankMatch s2.rank s2.heap ∧ s2.heap.length = s.heap.length ∧
      ((s2.heap : List β) : Multiset β) + {old} = ((s.heap : List β) : Multiset β) + {new} := by
  have hslot : getSlot s.heap i = some old := (hm old i).mp hold
  obtain ⟨hi1, hi2⟩ := getSlot_bounds hslot
  have hno : new ≠ old := by
    intro hc
    rw [rankMem, hc, hold] at hnew
    cases hnew
  have hsetset : setSlot (setSlot s.heap i new) i new = setSlot s.heap i new :=
    setSlot_setSlot s.heap i new new
  have hH1i : getSlot (setSlot s.heap i new) i = some new := getSlot_setSlot_self hi1 hi2 new
  have hH1o : ∀ k, k ≠ i → getSlot (setSlot s.heap i new) k = getSlot s.heap k := by
    intro k hk
    rw [getSlot_setSlot_ne (fun hc => hk hc.symm)]
  have hRank : ∀ y k, y ≠ new →
      (rankLookup (rankInsert (rankErase s.rank old) new i) y = some k ↔
        getSlot (setSlot (setSlot s.heap i new) i new) k = some y) := by
    intro y k hyn
    rw [rankLookup_rankInsert_ne _ i (fun hc => hyn hc.symm), hsetset]
    by_cases hyo : y = old
    · rw [hyo, rankLookup_rankErase_self]
      constructor
      · intro hc
        cases hc
      · intro hk
        exfalso
        by_cases hki : k = i
        · rw [hki, hH1i] at hk
          injection hk with hk
          exact hno hk
        · rw [hH1o k hki] at hk
          have hlk := (hm old k).mpr hk
          rw [hold] at hlk
          injection hlk with hlk
          exact hki hlk.symm
    · rw [rankLookup_rankErase_ne s.rank (fun hc => hyo hc.symm), hm y k]
      by_cases hki : k = i
      · rw [hki, hH1i, hslot]
        constructor
        · intro hc
          injection hc with hc
          exact absurd hc.symm hyo
        · intro hc
          injection hc with hc
          exact absurd hc.symm hyn
      · rw [hH1o k hki]
  have hOnly : ∀ k, getSlot (setSlot (setSlot s.heap i new) i new) k = some new → k = i := by
    intro k hk
    rw [hsetset] at hk
    by_cases hki : k = i
    · exact hki
    · exfalso
      rw [hH1o k hki] at hk
      have hlk := (hm new k).mpr hk
      rw [rankMem, hlk] at hnew
      cases hnew
  have hmset : ∀ h2 : List β, (h2 : Multiset β) = ((setSlot s.heap i new : List β) : Multiset β) →
      (h2 : Multiset β) + {old} = ((s.heap : List β) : Multiset β) + {new} := by
    intro h2 hh
    rw [hh]
    exact mset_setSlot hslot new
  by_cases hlt : ltb old new = true
  · have holdnew : old < new := ltb_true.mp hlt
    obtain ⟨h2, r2, hok, hord, hmatch, hlen, hms⟩ :=
      downLoop_correct (n := (setSlot s.heap i new).length + 1)
        ((setSlot s.heap i new).length + 1 - i) i (setSlot s.heap i new)
        (rankInsert (rankErase s.rank old) new i) new rfl hi1 (by simpa using hi2) rfl
        (by
          intro j y q hj hy hq
          rw [hsetset] at hy hq
          by_cases hji : j = i
          · rw [hji] at hy hq
            rw [hH1i] at hy
            injection hy with hy
            rw [hH1o (i / 2) (by omega)] at hq
            have hqold : q ≤ old := ltb_false.mp (ho i old q hslot hq)
            rw [← hy]
            exact le_trans hqold (le_of_lt holdnew)
          · rw [hH1o j hji] at hy
            rw [hH1o (j / 2) hj] at hq
            exact ltb_false.mp (ho j y q hy hq))
        (by
          intro c y gp hc hy hgp
          rw [hsetset] at hy hgp
          have hci : c ≠ i := by omega
          rw [hH1o c hci] at hy
          rw [hH1o (i / 2) (by omega)] at hgp
          have hle1 : gp ≤ old := ltb_false.mp (ho i old gp hslot hgp)
          have hle2 : old ≤ y := ltb_false.mp (ho c y old hy (by rw [hc]; exact hslot))
          exact le_trans hle1 hle2)
        hRank hOnly
    refine ⟨OurHeap.mk h2 r2, ?_, hord, hmatch, by rw [hlen]; simp,
      hmset h2 (by rw [hms, hsetset])⟩
    simp only [OurHeap.update, hold]
    rw [if_pos hi2, if_pos hlt]
    simp only [OurHeap.down, hH1i, hok]
  · have hfalse : ltb old new = false := by
      revert hlt
      cases ltb old new <;> simp
    have hnewold : new ≤ old := ltb_false.mp hfalse
    obtain ⟨h2, r2, hok, hord, hmatch, hlen, hms⟩ :=
      upLoop_correct i (setSlot s.heap i new) (rankInsert (rankErase s.rank old) new i) new
        hi1 (by simpa using hi2)
        (by
          intro j y q hj hy hq
          rw [hsetset] at hy hq
          rw [hH1o j hj] at hy
          by_cases hji2 : j / 2 = i
          · rw [hji2, hH1i] at hq
            injection hq with hq
            have hoy : old ≤ y := ltb_false.mp (ho j y old hy (by rw [hji2]; exact hslot))
            rw [← hq]
            exact le_trans hnewold hoy
          · rw [hH1o (j / 2) hji2] at hq
            exact ltb_false.mp (ho j y q hy hq))
        (by
          intro c y gp hc hy hgp
          rw [hsetset] at hy hgp
          have hci : c ≠ i := by omega
          rw [hH1o c hci] at hy
          rw [hH1o (i / 2) (by omega)] at hgp
          have hle1 : gp ≤ old := ltb_false.mp (ho i old gp hslot hgp)
          have hle2 : old ≤ y := ltb_false.mp (ho c y old hy (by rw [hc]; exact hslot))
          exact le_trans hle1 hle2)
        hRank hOnly
    refine ⟨OurHeap.mk h2 r2, ?_, hord, hmatch, by rw [hlen]; simp,
      hmset h2 (by rw [hms, hsetset])⟩
    simp only [OurHeap.update, hold]
    rw [if_pos hi2, if_neg hlt]
    simp only [OurHeap.up, hH1i, hok]

theorem heapOrd_nil (lt : α → α → Bool) : heapOrd lt ([] : List α) := by
  intro j y q hy hq
  rw [getSlot_nil] at hy
  cases hy

theorem rankMatch_nil : rankMatch ([] : RankMap α) ([] : List α) := by
  intro y k
  constructor
  · intro hk
    cases hk
  · intro hk
    rw [getSlot_nil] at hk
    cases hk

theorem pushAll_WF {β : Type} [DecidableEq β] [LinearOrder β] :
    ∀ (l : List β) (s : OurHeap β), heapOrd ltb s.heap → rankMatch s.rank s.heap →
    (∀ y ∈ l, rankMem s.rank y = false) → l.Nodup →
    ∃ s2, OurHeap.pushAll ltb s l = .ok s2 ∧ heapOrd ltb s2.heap ∧
      rankMatch s2.rank s2.heap ∧ s2.heap.length = s.heap.length + l.length ∧
      ((s2.heap : List β) : Multiset β) =
        ((s.heap : List β) : Multiset β) + (l : Multiset β) := by
  intro l
  induction l with
  | nil =>
    intro s ho hm _ _
    exact ⟨s, rfl, ho, hm, by simp, by simp⟩
  | cons a l ihl =>
    intro s ho hm habs hnd
    obtain ⟨s1, hok1, ho1, hm1, hlen1, hms1⟩ := push_WF s a ho hm (habs a (by simp))
    have habs1 : ∀ y ∈ l, rankMem s1.rank y = false := by
      intro y hy
      by_contra hcon
      have htrue : rankMem s1.rank y = true := by
        revert hcon
        cases rankMem s1.rank y <;> simp
      obtain ⟨k, hk⟩ := (rankMatch_mem_iff hm1).mp htrue
      have hmem : y ∈ s1.heap := mem_iff_getSlot.mpr ⟨k, hk⟩
      have hmemm : y ∈ ((s1.heap : List β) : Multiset β) := by simpa using hmem
      rw [hms1, Multiset.mem_cons] at hmemm
      rcases hmemm with h1 | h2
      · rw [List.nodup_cons] at hnd
        exact hnd.1 (h1 ▸ hy)
      · have hmem2 : y ∈ s.heap := by simpa using h2
        obtain ⟨j, hj⟩ := mem_iff_getSlot.mp hmem2
        have hmemr := (rankMatch_mem_iff hm).mpr ⟨j, hj⟩
        rw [habs y (by simp [hy])] at hmemr
        cases hmemr
    obtain ⟨s2, hok2, ho2, hm2, hlen2, hms2⟩ := ihl s1 ho1 hm1 habs1 (List.nodup_cons.mp hnd).2
    refine ⟨s2, ?_, ho2, hm2, ?_, ?_⟩
    · simp only [OurHeap.pushAll, hok1]
      exact hok2
    · rw [hlen2, hlen1]
      simp
      omega
    · rw [hms2, hms1, ← Multiset.cons_coe, Multiset.cons_add, Multiset.add_cons]

theorem popN_sorted {β : Type} [DecidableEq β] [LinearOrder β] :
    ∀ (k : Nat) (s : OurHeap β), heapOrd ltb s.heap → rankMatch s.rank s.heap →
    s.heap.length = k →
    ∃ s2 out, OurHeap.popN ltb s k = .ok (s2, out) ∧
      ((out : List β) : Multiset β) = ((s.heap : List β) : Multiset β) ∧
      out.Sorted (· ≤ ·) := by
  intro k
  induction k with
  | zero =>
    intro s ho hm hlen
    refine ⟨s, [], rfl, ?_, List.sorted_nil⟩
    rw [List.length_eq_zero.mp hlen]
  | succ k ihk =>
    intro s ho hm hlen
    obtain ⟨s1, root, hok, hroot, ho1, hm1, hlen1, hms1⟩ := pop_WF s ho hm (by omega)
    obtain ⟨s2, out, hok2, hms2, hsort⟩ := ihk s1 ho1 hm1 (by omega)
    refine ⟨s2, root :: out, ?_, ?_, ?_⟩
    · simp only [OurHeap.popN, hok, hok2]
    · rw [← Multiset.cons_coe, hms2, hms1]
    · rw [List.sorted_cons]
      refine ⟨?_, hsort⟩
      intro b hb
      have hb1 : b ∈ ((s1.heap : List β) : Multiset β) := by
        rw [← hms2]
        simpa using hb
      have hb2 : b ∈ ((s.heap : List β) : Multiset β) := by
        rw [← hms1]
        exact Multiset.mem_cons_of_mem hb1
      have hb3 : b ∈ s.heap := by simpa using hb2
      obtain ⟨j, hj⟩ := mem_iff_getSlot.mp hb3
      exact heapOrd_root_min ho hroot j b hj

/-- Claim C1: for any duplicate-free list over a linearly ordered type,
pushing every element into the initially empty heap succeeds, and popping
length-many times returns exactly those elements in fully sorted ascending
order (a sorted permutation of the input); in particular pushing 5, 3, 8, 1
and popping four times yields 1, 3, 5, 8. -/
theorem claim_C1_heap_sorts :
    (∀ {β : Type} [DecidableEq β] [LinearOrder β] (l : List β), l.Nodup →
      ∃ s, OurHeap.construct ltb l = .ok s ∧
      ∃ s2 out, OurHeap.popN ltb s l.length = .ok (s2, out) ∧
        out.Perm l ∧ out.Sorted (· ≤ ·)) ∧
    (OurHeap.construct (ltb (β := Int)) [5, 3, 8, 1] =
        .ok (OurHeap.mk [1, 3, 8, 5] [(5, 4), (3, 2), (8, 3), (1, 1)]) ∧
      OurHeap.popN (ltb (β := Int)) (OurHeap.mk [1, 3, 8, 5] [(5, 4), (3, 2), (8, 3), (1, 1)]) 4 =
        .ok (OurHeap.mk [] [], [1, 3, 5, 8])) := by
  refine ⟨?_, ?_, ?_⟩
  · intro β _ _ l hnd
    have hoe : heapOrd ltb ((OurHeap.mk [] [] : OurHeap β).heap) := heapOrd_nil ltb
    have hme : rankMatch ((OurHeap.mk [] [] : OurHeap β).rank)
        ((OurHeap.mk [] [] : OurHeap β).heap) := rankMatch_nil
    obtain ⟨s, hok, ho, hm, hlen, hms⟩ :=
      pushAll_WF l (OurHeap.mk [] []) hoe hme (fun y _ => rfl) hnd
    refine ⟨s, ?_, ?_⟩
    · rw [OurHeap.construct]
      exact hok
    obtain ⟨s2, out, hok2, hms2, hsort⟩ := popN_sorted l.length s ho hm (by rw [hlen]; simp)
    refine ⟨s2, out, hok2, ?_, hsort⟩
    have hcoe : ((out : List β) : Multiset β) = ((l : List β) : Multiset β) := by
      rw [hms2, hms]
      simp
    exact Multiset.coe_eq_coe.mp hcoe
  · simp [OurHeap.construct, OurHeap.pushAll, OurHeap.push, OurHeap.up, OurHeap.upLoop,
      rankMem, rankLookup, rankInsert, getSlot, setSlot, ltb]
  · simp [OurHeap.popN, OurHeap.pop, OurHeap.down, OurHeap.downLoop,
      rankMem, rankLookup, rankInsert, rankErase, getSlot, setSlot, ltb]

/-- Witness for C1's general part: pushing 5, 3, 8, 1 and popping four times
yields a sorted permutation of the input. -/
theorem claim_C1_heap_sorts_witness :
    ([5, 3, 8, 1] : List Int).Nodup ∧
    (∃ s, OurHeap.construct (ltb (β := Int)) [5, 3, 8, 1] = .ok s ∧
    ∃ s2 out, OurHeap.popN ltb s ([5, 3, 8, 1] : List Int).length = .ok (s2, out) ∧
      out.Perm [5, 3, 8, 1] ∧ out.Sorted (· ≤ ·)) :=
  ⟨by decide, claim_C1_heap_sorts.1 [5, 3, 8, 1] (by decide)⟩

theorem stepPre_WF {β : Type} [DecidableEq β] [LinearOrder β] (s s2 : OurHeap β) (op : HOp β)
    (ho : heapOrd ltb s.heap) (hm : rankMatch s.rank s.heap)
    (hstep : stepPre ltb s op = some s2) :
    heapOrd ltb s2.heap ∧ rankMatch s2.rank s2.heap := by
  cases op with
  | push x =>
    simp only [stepPre] at hstep
    by_cases hmem : rankMem s.rank x = true
    · rw [if_pos hmem] at hstep
      cases hstep
    · have hmem' : rankMem s.rank x = false := by
        revert hmem
        cases rankMem s.rank x <;> simp
      rw [if_neg hmem] at hstep
      obtain ⟨s1, hok, ho1, hm1, _, _⟩ := push_WF s x ho hm hmem'
      rw [hok] at hstep
      simp only [exceptToOption] at hstep
      injection hstep with hstep
      rw [← hstep]
      exact ⟨ho1, hm1⟩
  | pop =>
    simp only [stepPre] at hstep
    by_cases hlen : 1 ≤ s.heap.length
    · obtain ⟨s1, root, hok, _, ho1, hm1, _, _⟩ := pop_WF s ho hm hlen
      rw [hok] at hstep
      dsimp only at hstep
      injection hstep with hstep
      rw [← hstep]
      exact ⟨ho1, hm1⟩
    · have hnil : s.heap = [] := by
        cases hh : s.heap with
        | nil => rfl
        | cons a t =>
          rw [hh] at hlen
          simp at hlen
      have hperr : OurHeap.pop ltb s = .error s := by
        simp only [OurHeap.pop, hnil, getSlot_nil]
      rw [hperr] at hstep
      cases hstep
  | update old new =>
    simp only [stepPre] at hstep
    by_cases hmem : rankMem s.rank new = true
    · rw [if_pos hmem] at hstep
      cases hstep
    · have hmem' : rankMem s.rank new = false := by
        revert hmem
        cases rankMem s.rank new <;> simp
      rw [if_neg hmem] at hstep
      cases hlook : rankLookup s.rank old with
      | none =>
        rw [hlook] at hstep
        cases hstep
      | some i =>
        rw [hlook] at hstep
        dsimp only at hstep
        obtain ⟨s1, hok, ho1, hm1, _, _⟩ := update_WF s old new ho hm hlook hmem'
        rw [hok] at hstep
        simp only [exceptToOption] at hstep
        injection hstep with hstep
        rw [← hstep]
        exact ⟨ho1, hm1⟩

theorem runPre_WF {β : Type} [DecidableEq β] [LinearOrder β] :
    ∀ (ops : List (HOp β)) (s s2 : OurHeap β), heapOrd ltb s.heap → rankMatch s.rank s.heap →
    runPre ltb s ops = some s2 → heapOrd ltb s2.heap ∧ rankMatch s2.rank s2.heap := by
  intro ops
  induction ops with
  | nil =>
    intro s s2 ho hm hrun
    simp only [runPre] at hrun
    injection hrun with hrun
    rw [← hrun]
    exact ⟨ho, hm⟩
  | cons op ops ihp =>
    intro s s2 ho hm hrun
    simp only [runPre] at hrun
    cases hst : stepPre ltb s op with
    | none =>
      rw [hst] at hrun
      cases hrun
    | some s1 =>
      rw [hst] at hrun
      dsimp only at hrun
      obtain ⟨ho1, hm1⟩ := stepPre_WF s s1 op ho hm hst
      exact ihp s1 s2 ho1 hm1 hrun

/-- Claim C2: after any sequence of heap operations run from the empty heap in
which each operation satisfies its precondition (push of an absent element,
pop of a non-empty heap, update with `old` present and `new` absent), the
resulting state satisfies both invariants: the rank dictionary binds exactly
the occupied elements, each to the slot holding it (`rank[heap[i]] = i`, a
bijection), and every occupied slot holds an element no smaller than its
parent slot's element. -/
theorem claim_C2_invariants_preserved {β : Type} [DecidableEq β] [LinearOrder β]
    (ops : List (HOp β)) (s : OurHeap β)
    (hrun : runPre ltb (OurHeap.mk [] []) ops = some s) :
    rankMatch s.rank s.heap ∧ heapOrd ltb s.heap := by
  obtain ⟨ho, hm⟩ := runPre_WF ops (OurHeap.mk [] []) s (heapOrd_nil ltb) rankMatch_nil hrun
  exact ⟨hm, ho⟩

/-- Witness for C2 on a trace exercising push, update and pop. -/
theorem claim_C2_invariants_preserved_witness :
    rankMatch (OurHeap.mk [3, 8] [(3, 1), (8, 2)] : OurHeap Int).rank
      (OurHeap.mk [3, 8] [(3, 1), (8, 2)] : OurHeap Int).heap ∧
    heapOrd ltb (OurHeap.mk [3, 8] [(3, 1), (8, 2)] : OurHeap Int).heap :=
  claim_C2_invariants_preserved
    [.push 5, .push 3, .push 8, .update 5 2, .pop]
    (OurHeap.mk [3, 8] [(3, 1), (8, 2)])
    (by simp [runPre, stepPre, OurHeap.push, OurHeap.pop, OurHeap.update, OurHeap.up,
      OurHeap.upLoop, OurHeap.down, OurHeap.downLoop, rankMem, rankLookup, rankInsert,
      rankErase, getSlot, setSlot, ltb, exceptToOption])

/-- Claim C5: under the heap invariants, `update(old, new)` with `old` present
at slot `i` and `new` absent restores heap order with a single sift in the
direction given by one comparison: when `new > old` the call is exactly one
sift-down from slot `i` of the written state, when `new < old` exactly one
sift-up from the same slot, with no other traversal, and in both cases the
call returns a state satisfying heap order.  Concretely, in the heap built
from 10, 20, 30, after `update 20 5` the pops yield 5 first (5, 10, 30), and
after `update 20 25` the pops yield 10, 25, 30 in sorted order. -/
theorem claim_C5_update_direction :
    (∀ {β : Type} [DecidableEq β] [LinearOrder β] (s : OurHeap β) (old new : β) (i : Nat),
      heapOrd ltb s.heap → rankMatch s.rank s.heap →
      rankLookup s.rank old = some i → rankMem s.rank new = false →
      ((old < new →
        OurHeap.update ltb s old new =
          OurHeap.down ltb (OurHeap.mk (setSlot s.heap i new)
            (rankInsert (rankErase s.rank old) new i)) i) ∧
       (new < old →
        OurHeap.update ltb s old new =
          OurHeap.up ltb (OurHeap.mk (setSlot s.heap i new)
            (rankInsert (rankErase s.rank old) new i)) i) ∧
       (∃ s2, OurHeap.update ltb s old new = .ok s2 ∧ heapOrd ltb s2.heap))) ∧
    (OurHeap.construct (ltb (β := Int)) [10, 20, 30] =
        .ok (OurHeap.mk [10, 20, 30] [(10, 1), (20, 2), (30, 3)]) ∧
      OurHeap.update (ltb (β := Int)) (OurHeap.mk [10, 20, 30] [(10, 1), (20, 2), (30, 3)]) 20 5 =
        .ok (OurHeap.mk [5, 10, 30] [(10, 2), (30, 3), (5, 1)]) ∧
      OurHeap.popN (ltb (β := Int)) (OurHeap.mk [5, 10, 30] [(10, 2), (30, 3), (5, 1)]) 3 =
        .ok (OurHeap.mk [] [], [5, 10, 30])) ∧
    (OurHeap.update (ltb (β := Int)) (OurHeap.mk [10, 20, 30] [(10, 1), (20, 2), (30, 3)]) 20 25 =
        .ok (OurHeap.mk [10, 25, 30] [(10, 1), (30, 3), (25, 2)]) ∧
      OurHeap.popN (ltb (β := Int)) (OurHeap.mk [10, 25, 30] [(10, 1), (30, 3), (25, 2)]) 3 =
        .ok (OurHeap.mk [] [], [10, 25, 30])) := by
  refine ⟨?_, ⟨?_, ?_, ?_⟩, ?_, ?_⟩
  · intro β _ _ s old new i ho hm hold hnew
    have hslot := (hm old i).mp hold
    obtain ⟨hi1, hi2⟩ := getSlot_bounds hslot
    refine ⟨?_, ?_, ?_⟩
    · intro hlt
      simp only [OurHeap.update, hold]
      rw [if_pos hi2, if_pos (ltb_true.mpr hlt)]
    · intro hlt
      have hfalse : ltb old new = false := ltb_false.mpr (le_of_lt hlt)
      simp only [OurHeap.update, hold]
      rw [if_pos hi2, if_neg (by simp [hfalse])]
    · obtain ⟨s2, hok, ho2, hm2, _, _⟩ := update_WF s old new ho hm hold hnew
      exact ⟨s2, hok, ho2⟩
  · simp [OurHeap.construct, OurHeap.pushAll, OurHeap.push, OurHeap.up, OurHeap.upLoop,
      rankMem, rankLookup, rankInsert, getSlot, setSlot, ltb]
  · simp [OurHeap.update, OurHeap.up, OurHeap.upLoop, OurHeap.down, OurHeap.downLoop,
      rankMem, rankLookup, rankInsert, rankErase, getSlot, setSlot, ltb]
  · simp [OurHeap.popN, OurHeap.pop, OurHeap.down, OurHeap.downLoop,
      rankMem, rankLookup, rankInsert, rankErase, getSlot, setSlot, ltb]
  · simp [OurHeap.update, OurHeap.up, OurHeap.upLoop, OurHeap.down, OurHeap.downLoop,
      rankMem, rankLookup, rankInsert, rankErase, getSlot, setSlot, ltb]
  · simp [OurHeap.popN, OurHeap.pop, OurHeap.down, OurHeap.downLoop,
      rankMem, rankLookup, rankInsert, rankErase, getSlot, setSlot, ltb]

/-- Witness for C5's general part at the concrete 10, 20, 30 heap with
`update 20 5` (the concrete conjuncts of the theorem carry no hypotheses). -/
theorem claim_C5_update_direction_witness :
    ((20 : Int) < 5 →
      OurHeap.update ltb (OurHeap.mk [10, 20, 30] [(10, 1), (20, 2), (30, 3)] : OurHeap Int) 20 5 =
        OurHeap.down ltb (OurHeap.mk (setSlot [10, 20, 30] 2 5)
          (rankInsert (rankErase [(10, 1), (20, 2), (30, 3)] 20) 5 2)) 2) ∧
    ((5 : Int) < 20 →
      OurHeap.update ltb (OurHeap.mk [10, 20, 30] [(10, 1), (20, 2), (30, 3)] : OurHeap Int) 20 5 =
        OurHeap.up ltb (OurHeap.mk (setSlot [10, 20, 30] 2 5)
          (rankInsert (rankErase [(10, 1), (20, 2), (30, 3)] 20) 5 2)) 2) ∧
    (∃ s2, OurHeap.update ltb
        (OurHeap.mk [10, 20, 30] [(10, 1), (20, 2), (30, 3)] : OurHeap Int) 20 5 = .ok s2 ∧
      heapOrd ltb s2.heap) :=
  claim_C5_update_direction.1
    (OurHeap.mk [10, 20, 30] [(10, 1), (20, 2), (30, 3)]) 20 5 2
    (heapOrd_of_heapOrdB (by decide)) (rankMatch_of_rankMatchB (by decide))
    (by decide) (by decide)

end DataStructures
